import Mathlib

/-!
# Verification of the sentinel-alert-app core

A shallow embedding, in Lean 4, of the request-admission pipeline and the
Redis-backed alert store of the `sentinel-alert-app` Go repository, together
with proofs and refutations of the specification's claims about them.

Conventions of the embedding:

* Go strings and byte slices are modelled as `List Char` (`Str`) and
  `List Nat` (bytes, each `< 256`).  Keys of the Redis keyspace are `Str`.
* `time.Time` is modelled as a `Nat` of UTC nanoseconds for the store and the
  idempotency filter; the rate limiter's `float64` second arithmetic is
  modelled by exact rationals (`ℚ`).
* The Redis keyspace is a single association list from keys to typed values
  (string / integer / sorted set / set), each with an optional absolute
  expiry deadline, mirroring per-key TTLs.  A key whose deadline has passed
  behaves as absent, which is how Redis's lazy expiry is observed by clients.
-/

/-- Go strings modelled as lists of characters. -/
abbrev Str := List Char

/-- Character list of a Lean string literal (used to write Go string
literals from the source). -/
def str (s : String) : Str := s.data

/-- `leadsWith p l` holds when `p` is an initial segment of `l`
(the test Redis's `SCAN key*` glob performs on each key name). -/
def leadsWith : Str → Str → Bool
  | [], _ => true
  | _ :: _, [] => false
  | c :: cs, d :: ds => c == d && leadsWith cs ds

/-- Substring containment, Go's `strings.Contains`: some (possibly empty)
occurrence of `needle` starts at some position of `hay`. -/
def hasSub (hay needle : Str) : Bool :=
  match hay with
  | [] => needle.isEmpty
  | _ :: t => leadsWith needle hay || hasSub t needle

/-- ASCII lower-casing of one character; models Go's `strings.ToLower`
on the ASCII inputs this repository manipulates. -/
def lowerChar (c : Char) : Char :=
  if 'A' ≤ c ∧ c ≤ 'Z' then Char.ofNat (c.toNat + 32) else c

/-- `strings.ToLower` on the ASCII fragment. -/
def strLower (s : Str) : Str := s.map lowerChar

/-- Strict lexicographic (byte-wise) order of strings, the order Redis
uses between members of a sorted set that have the same score. -/
def strLt : Str → Str → Bool
  | [], [] => false
  | [], _ :: _ => true
  | _ :: _, [] => false
  | c :: cs, d :: ds => c < d || (c == d && strLt cs ds)

/-- ASCII digit for a value `< 10`. -/
def decChar (d : Nat) : Char := Char.ofNat (48 + d)

/-- Fuel-driven decimal rendering (most significant digit first). -/
def decAux : Nat → Nat → Str
  | 0, _ => []
  | fuel + 1, n =>
    if n < 10 then [decChar n] else decAux fuel (n / 10) ++ [decChar (n % 10)]

/-- Decimal rendering of a natural number, Go's `fmt.Sprintf "%d"`. -/
def natToDec (n : Nat) : Str := decAux (n + 1) n

theorem decChar_toNat {d : Nat} (h : d < 10) : (decChar d).toNat = 48 + d := by
  interval_cases d <;> rfl

theorem decAux_digits {fuel n : Nat} {c : Char} (h : c ∈ decAux fuel n) :
    48 ≤ c.toNat ∧ c.toNat ≤ 57 := by
  induction fuel generalizing n with
  | zero => simp [decAux] at h
  | succ fuel ih =>
    simp only [decAux] at h
    split at h
    · rcases List.mem_singleton.mp h with rfl
      rw [decChar_toNat (by assumption)]
      omega
    · rcases List.mem_append.mp h with h' | h'
      · exact ih h'
      · rcases List.mem_singleton.mp h' with rfl
        rw [decChar_toNat (Nat.mod_lt _ (by omega))]
        omega

theorem natToDec_digits {n : Nat} {c : Char} (h : c ∈ natToDec n) :
    48 ≤ c.toNat ∧ c.toNat ≤ 57 := decAux_digits h

/-! ## The Redis keyspace model -/

/-- An alert record (`internal/models/alert.go`).  `createdAt` is a UTC
timestamp in nanoseconds, the resolution of Go's `time.Time`. -/
structure Alert where
  id : Nat
  createdAt : Nat
  source : Str
  level : Str
  title : Str
  message : Str
  deriving DecidableEq

/-- A Redis value, restricted to the types the alert store uses.
`rstr` is a string key holding the JSON of an alert; `rint` is a string key
holding a decimal integer (the id counter); `rzset` is a sorted set kept in
strictly ascending `(score, member)` order; `rset` is an unordered set.
String and set keys carry an optional absolute expiry deadline. -/
inductive RVal where
  | rstr (a : Alert) (expireAt : Option Nat)
  | rint (n : Nat)
  | rzset (l : List (Nat × Str))
  | rset (mem : List Str) (expireAt : Option Nat)
  deriving DecidableEq

/-- Whether the key holding this value is still live at instant `now`
(Redis treats a key whose TTL elapsed as absent). -/
def RVal.liveAt (v : RVal) (now : Nat) : Bool :=
  match v with
  | .rstr _ (some e) => now < e
  | .rset _ (some e) => now < e
  | _ => true

/-- The Redis keyspace: an association list from key names to values. -/
structure Redis where
  kv : List (Str × RVal)
  deriving DecidableEq

def Redis.empty : Redis := ⟨[]⟩

/-- Raw lookup, ignoring expiry. -/
def Redis.find (r : Redis) (k : Str) : Option RVal :=
  (r.kv.find? (fun p => p.1 == k)).map (fun p => p.2)

/-- Client-visible lookup: an expired key is absent (`redis.Nil`). -/
def Redis.get (r : Redis) (now : Nat) (k : Str) : Option RVal :=
  match r.find k with
  | some v => if v.liveAt now then some v else none
  | none => none

/-- Upsert of one key. -/
def Redis.setKey (r : Redis) (k : Str) (v : RVal) : Redis :=
  ⟨(k, v) :: r.kv.filter (fun p => !(p.1 == k))⟩

/-- `DEL` of a batch of keys. -/
def Redis.del (r : Redis) (ks : List Str) : Redis :=
  ⟨r.kv.filter (fun p => !(ks.contains p.1))⟩

/-- `INCR`: missing (or expired, or non-integer) key restarts at 1. -/
def Redis.incr (r : Redis) (now : Nat) (k : Str) : Redis × Nat :=
  match r.get now k with
  | some (.rint n) => (r.setKey k (.rint (n + 1)), n + 1)
  | _ => (r.setKey k (.rint 1), 1)

/-- Insertion into a sorted-set member list kept strictly ascending in
`(score, member)`; ties in score are ordered by byte-wise member order. -/
def zinsert (sc : Nat) (m : Str) : List (Nat × Str) → List (Nat × Str)
  | [] => [(sc, m)]
  | (s, x) :: rest =>
    if sc < s || (sc == s && strLt m x) then (sc, m) :: (s, x) :: rest
    else (s, x) :: zinsert sc m rest

/-- `ZADD`: update-or-insert one member with its score. -/
def Redis.zadd (r : Redis) (now : Nat) (k : Str) (sc : Nat) (m : Str) : Redis :=
  let old := match r.get now k with
    | some (.rzset l) => l
    | _ => []
  r.setKey k (.rzset (zinsert sc m (old.filter (fun p => !(p.2 == m)))))

/-- `ZREVRANGE key 0 -1`: every member, highest score first; ties in score
come in reverse byte-wise member order. -/
def Redis.zrevrangeAll (r : Redis) (now : Nat) (k : Str) : List Str :=
  match r.get now k with
  | some (.rzset l) => (l.map (fun p => p.2)).reverse
  | _ => []

/-- `ZREM` of one member. -/
def Redis.zrem (r : Redis) (now : Nat) (k m : Str) : Redis :=
  match r.get now k with
  | some (.rzset l) => r.setKey k (.rzset (l.filter (fun p => !(p.2 == m))))
  | _ => r

/-- `SADD` of one member; a missing key becomes a fresh set without TTL. -/
def Redis.sadd (r : Redis) (now : Nat) (k m : Str) : Redis :=
  match r.get now k with
  | some (.rset mem e) =>
      r.setKey k (.rset (if mem.contains m then mem else mem ++ [m]) e)
  | _ => r.setKey k (.rset [m] none)

/-- `SREM` of one member. -/
def Redis.srem (r : Redis) (now : Nat) (k m : Str) : Redis :=
  match r.get now k with
  | some (.rset mem e) => r.setKey k (.rset (mem.filter (fun x => !(x == m))) e)
  | _ => r

/-- `SMEMBERS`; an absent or expired key yields the empty list. -/
def Redis.smembers (r : Redis) (now : Nat) (k : Str) : List Str :=
  match r.get now k with
  | some (.rset mem _) => mem
  | _ => []

/-- `SINTER` over a non-empty list of set keys. -/
def Redis.sinter (r : Redis) (now : Nat) (ks : List Str) : List Str :=
  match ks with
  | [] => []
  | k :: rest =>
      (r.smembers now k).filter
        (fun m => rest.all (fun k2 => (r.smembers now k2).contains m))

/-- `EXPIRE key`: re-stamp the deadline of a live string or set key. -/
def Redis.expireKey (r : Redis) (now : Nat) (k : Str) (dl : Nat) : Redis :=
  match r.get now k with
  | some (.rstr a _) => r.setKey k (.rstr a (some dl))
  | some (.rset mem _) => r.setKey k (.rset mem (some dl))
  | _ => r

/-- `SCAN` with glob `pre*`: the names of the live keys starting with `pre`. -/
def Redis.scanPre (r : Redis) (now : Nat) (pre : Str) : List Str :=
  (r.kv.filter (fun p => p.2.liveAt now && leadsWith pre p.1)).map (fun p => p.1)

/-! ## The alert store (`internal/store/admin.go`, `RedisStore`) -/

/-- Nanoseconds per second; timeline scores are `CreatedAt.Unix()`,
i.e. the creation timestamp truncated to whole seconds. -/
def nsPerSec : Nat := 1000000000

/-- `alertTTL = 30 * 24 * time.Hour`, in nanoseconds. -/
def alertTTL : Nat := 30 * 24 * 3600 * nsPerSec

/-- Key of one alert record: `fmt.Sprintf("alert:%d", id)`. -/
def alertKey (id : Nat) : Str := str "alert:" ++ natToDec id

/-- The id-counter key `alert:next_id`. -/
def keyNextId : Str := str "alert:next_id"

/-- The timeline sorted-set key. -/
def keyTimeline : Str := str "alerts:timeline"

/-- Level index key: `fmt.Sprintf("alerts:level:%s", strings.ToLower(level))`. -/
def levelKey (level : Str) : Str := str "alerts:level:" ++ strLower level

/-- Source index key. -/
def sourceKey (source : Str) : Str := str "alerts:source:" ++ strLower source

/-- `RedisStore.AddAlert`: atomically draw the next id, write the record
with the retention TTL, add it to the timeline (score = creation time in
seconds) and to the level/source index sets, re-stamping those sets' TTL. -/
def addAlert (r : Redis) (now : Nat) (source level title message : Str) :
    Redis × Alert :=
  let p := r.incr now keyNextId
  let a : Alert := ⟨p.2, now, source, level, title, message⟩
  let key := alertKey p.2
  let r2 := p.1.setKey key (.rstr a (some (now + alertTTL)))
  let r3 := r2.zadd now keyTimeline (now / nsPerSec) key
  let r4 :=
    if level == [] then r3
    else (r3.sadd now (levelKey level) key).expireKey now (levelKey level)
      (now + alertTTL)
  let r5 :=
    if source == [] then r4
    else (r4.sadd now (sourceKey source) key).expireKey now (sourceKey source)
      (now + alertTTL)
  (r5, a)

/-- The walk `RedisStore.GetAlerts` performs over the timeline members:
fetch each record, keeping it when live; on `redis.Nil` remove the stale
member from the timeline; skip values that fail to unmarshal. -/
def getAlertsGo (now : Nat) : Redis → List Str → Redis × List Alert
  | r, [] => (r, [])
  | r, k :: rest =>
    match r.get now k with
    | some (.rstr a _) =>
      let p := getAlertsGo now r rest
      (p.1, a :: p.2)
    | some _ => getAlertsGo now r rest
    | none => getAlertsGo now (r.zrem now keyTimeline k) rest

/-- `RedisStore.GetAlerts` (`list()`): walk the timeline newest-first. -/
def getAlerts (r : Redis) (now : Nat) : Redis × List Alert :=
  getAlertsGo now r (r.zrevrangeAll now keyTimeline)

/-- Concatenation searched by the text query:
`strings.ToLower(a.Title + " " + a.Message + " " + a.Source)`. -/
def searchText (a : Alert) : Str :=
  a.title ++ [' '] ++ a.message ++ [' '] ++ a.source

/-- Candidate keys of `RedisStore.SearchAlerts`: the intersection of the
given level/source index sets; with a single filter, that set's members;
with no filter, the whole timeline. -/
def searchKeys (r : Redis) (now : Nat) (level source : Str) : List Str :=
  let setKeys :=
    (if level == [] then [] else [levelKey level]) ++
    (if source == [] then [] else [sourceKey source])
  match setKeys with
  | [] => r.zrevrangeAll now keyTimeline
  | [k] => r.smembers now k
  | ks => r.sinter now ks

/-- Per-candidate fetch-and-filter loop of `SearchAlerts`; `q` is the
already lower-cased query. -/
def collectAlerts (r : Redis) (now : Nat) (q : Str) : List Str → List Alert
  | [] => []
  | k :: rest =>
    match r.get now k with
    | some (.rstr a _) =>
      if q == [] || hasSub (strLower (searchText a)) q
      then a :: collectAlerts r now q rest
      else collectAlerts r now q rest
    | _ => collectAlerts r now q rest

/-- `RedisStore.SearchAlerts`. -/
def searchAlerts (r : Redis) (now : Nat) (query level source : Str) :
    List Alert :=
  collectAlerts r now (strLower query) (searchKeys r now level source)

/-- `RedisStore.PurgeAllAlerts`: delete every live key matching `alert:*`,
then the timeline, then every `alerts:level:*` and `alerts:source:*` key. -/
def purgeAllAlerts (r : Redis) (now : Nat) : Redis :=
  let r1 := r.del (r.scanPre now (str "alert:"))
  let r2 := r1.del [keyTimeline]
  let r3 := r2.del (r2.scanPre now (str "alerts:level:"))
  r3.del (r3.scanPre now (str "alerts:source:"))

/-- `RedisStore.ClearAlerts` (legacy list key). -/
def clearAlerts (r : Redis) : Redis := r.del [str "alerts"]

/-- Modelled from the spec: `RedisStore.PurgeAlertsByChat` is declared on
the `AlertStore` interface and called by `PurgeAlertsHandler`, but its
implementation is not among the provided sources.  Following the spec and
the repository's `PURGE_ENHANCEMENT_SUMMARY.md`: fetch all alerts from the
timeline; those whose `source` contains the substring `chat:{chatID}` have
their record deleted and their identity removed from the timeline and from
the level/source index sets that reference them. -/
def purgeChatGo (now : Nat) (tag : Str) : Redis → List Str → Redis
  | r, [] => r
  | r, k :: rest =>
    match r.get now k with
    | some (.rstr a _) =>
      if hasSub a.source tag then
        let r1 := (r.del [k]).zrem now keyTimeline k
        let r2 := r1.srem now (levelKey a.level) k
        let r3 := r2.srem now (sourceKey a.source) k
        purgeChatGo now tag r3 rest
      else purgeChatGo now tag r rest
    | _ => purgeChatGo now tag r rest

/-- Modelled from the spec: `RedisStore.PurgeAlertsByChat` (see
`purgeChatGo`). -/
def purgeAlertsByChat (r : Redis) (now : Nat) (chatID : Str) : Redis :=
  purgeChatGo now (str "chat:" ++ chatID) r (r.zrevrangeAll now keyTimeline)

/-! ## The rate limiter (`main.go`, `rateLimiter`)

Go's `float64` second arithmetic and `time.Time` instants are modelled by
exact rationals. -/

/-- One per-client token bucket: current token count and the instant (in
seconds) of the last refill. -/
structure TokenBucket where
  tokens : ℚ
  last : ℚ
  deriving DecidableEq

/-- The limiter: per-key buckets plus the fixed rate, burst capacity and
refill period (seconds). -/
structure RateLimiter where
  buckets : List (Str × TokenBucket)
  rate : ℚ
  burst : ℚ
  refill : ℚ
  deriving DecidableEq

/-- `minFloat` (`main.go`). -/
def minFloat (a b : ℚ) : ℚ := if a < b then a else b

/-- `newRateLimiter`. -/
def newRateLimiter (rate burst refill : ℚ) : RateLimiter :=
  ⟨[], rate, burst, refill⟩

def lookupBucket (rl : RateLimiter) (k : Str) : Option TokenBucket :=
  (rl.buckets.find? (fun p => p.1 == k)).map (fun p => p.2)

def setBucket (rl : RateLimiter) (k : Str) (b : TokenBucket) : RateLimiter :=
  { rl with buckets := (k, b) :: rl.buckets.filter (fun p => !(p.1 == k)) }

/-- `rateLimiter.allow`: a first-seen key gets a bucket with `burst - 1`
tokens; otherwise tokens are replenished by `rate * elapsed / refill`,
clamped to `burst`, and the updated count is stored back; if it is `< 1`
the call is rejected (the last-refill instant is not advanced), else one
token is deducted and the instant is set to `now`. -/
def RateLimiter.allow (rl : RateLimiter) (now : ℚ) (key : Str) :
    RateLimiter × Bool :=
  match lookupBucket rl key with
  | none => (setBucket rl key ⟨rl.burst - 1, now⟩, true)
  | some b =>
    let refilled := minFloat rl.burst (b.tokens + rl.rate * (now - b.last) / rl.refill)
    if refilled < 1 then (setBucket rl key ⟨refilled, b.last⟩, false)
    else (setBucket rl key ⟨refilled - 1, now⟩, true)

/-- A sequence of `allow` calls, each with its wall-clock instant. -/
def runAllow : RateLimiter → List (ℚ × Str) → RateLimiter
  | rl, [] => rl
  | rl, (t, k) :: rest => runAllow (rl.allow t k).1 rest

/-! ## The idempotency store (`main.go`, `idempotencyStore`) -/

/-- Key → absolute expiry instant, plus the fixed TTL (both in the same
clock as the limiter's, seconds as exact rationals). -/
structure IdemStore where
  items : List (Str × ℚ)
  ttl : ℚ
  deriving DecidableEq

def newIdemStore (ttl : ℚ) : IdemStore := ⟨[], ttl⟩

def lookupItem (s : IdemStore) (k : Str) : Option ℚ :=
  (s.items.find? (fun p => p.1 == k)).map (fun p => p.2)

def setItem (s : IdemStore) (k : Str) (e : ℚ) : IdemStore :=
  { s with items := (k, e) :: s.items.filter (fun p => !(p.1 == k)) }

/-- `idempotencyStore.seen`: the empty key is never seen and leaves the
store untouched; a key whose recorded expiry is still in the future is
seen, without extending it; otherwise the key is (re-)recorded with expiry
`now + ttl` and reported unseen. -/
def IdemStore.seen (s : IdemStore) (now : ℚ) (key : Str) : Bool × IdemStore :=
  if key == [] then (false, s)
  else
    match lookupItem s key with
    | some exp => if now < exp then (true, s) else (false, setItem s key (now + s.ttl))
    | none => (false, setItem s key (now + s.ttl))

/-! ## HMAC-SHA256 and the signature check

SHA-256 over byte lists (`List Nat`, entries `< 256`), word arithmetic as
`Nat` reduced `% 2 ^ 32`, mirroring Go's `crypto/sha256`, `crypto/hmac`
and `encoding/hex` as used by `hmacMiddleware` (`main.go`) and
`validateSharedSecret`. -/

def w32 : Nat := 4294967296

def rotr (n x : Nat) : Nat := ((x >>> n) ||| (x <<< (32 - n))) % w32

def sha0 (x : Nat) : Nat := (rotr 7 x) ^^^ (rotr 18 x) ^^^ (x >>> 3)

def sha1 (x : Nat) : Nat := (rotr 17 x) ^^^ (rotr 19 x) ^^^ (x >>> 10)

def shaS0 (x : Nat) : Nat := (rotr 2 x) ^^^ (rotr 13 x) ^^^ (rotr 22 x)

def shaS1 (x : Nat) : Nat := (rotr 6 x) ^^^ (rotr 11 x) ^^^ (rotr 25 x)

def shaCh (x y z : Nat) : Nat := (x &&& y) ^^^ ((x ^^^ 4294967295) &&& z)

def shaMaj (x y z : Nat) : Nat := (x &&& y) ^^^ (x &&& z) ^^^ (y &&& z)

/-- The 64 SHA-256 round constants. -/
def shaK : List Nat :=
  [1116352408, 1899447441, 3049323471, 3921009573, 961987163, 1508970993,
   2453635748, 2870763221, 3624381080, 310598401, 607225278, 1426881987,
   1925078388, 2162078206, 2614888103, 3248222580, 3835390401, 4022224774,
   264347078, 604807628, 770255983, 1249150122, 1555081692, 1996064986,
   2554220882, 2821834349, 2952996808, 3210313671, 3336571891, 3584528711,
   113926993, 338241895, 666307205, 773529912, 1294757372, 1396182291,
   1695183700, 1986661051, 2177026350, 2456956037, 2730485921, 2820302411,
   3259730800, 3345764771, 3516065817, 3600352804, 4094571909, 275423344,
   430227734, 506948616, 659060556, 883997877, 958139571, 1322822218,
   1537002063, 1747873779, 1955562222, 2024104815, 2227730452, 2361852424,
   2428436474, 2756734187, 3204031479, 3329325298]

/-- The initial SHA-256 state. -/
def shaH0 : List Nat :=
  [1779033703, 3144134277, 1013904242, 2773480762, 1359893119, 2600822924,
   528734635, 1541459225]

/-- Big-endian 8-byte rendering of the message bit length. -/
def be64 (n : Nat) : List Nat :=
  [(n >>> 56) % 256, (n >>> 48) % 256, (n >>> 40) % 256, (n >>> 32) % 256,
   (n >>> 24) % 256, (n >>> 16) % 256, (n >>> 8) % 256, n % 256]

/-- Big-endian 4-byte rendering of one state word. -/
def be32 (n : Nat) : List Nat :=
  [(n >>> 24) % 256, (n >>> 16) % 256, (n >>> 8) % 256, n % 256]

/-- SHA-256 padding: a `0x80` byte, zeros to 56 mod 64, then the bit
length in 8 big-endian bytes. -/
def padMsg (msg : List Nat) : List Nat :=
  let L := msg.length
  msg ++ [128] ++ List.replicate ((64 - (L + 9) % 64) % 64) 0 ++ be64 (8 * L)

/-- Split into 64-byte blocks (fuel-driven). -/
def chunks64 : Nat → List Nat → List (List Nat)
  | 0, _ => []
  | _, [] => []
  | fuel + 1, l => l.take 64 :: chunks64 fuel (l.drop 64)

/-- The 16 big-endian message words of one block. -/
def toWords : List Nat → List Nat
  | a :: b :: c :: d :: rest => (a * 16777216 + b * 65536 + c * 256 + d) :: toWords rest
  | _ => []

/-- Extend the message schedule by `fuel` further words. -/
def extendW : Nat → List Nat → List Nat
  | 0, l => l
  | fuel + 1, l =>
    let i := l.length
    extendW fuel
      (l ++ [(sha1 (l.getD (i - 2) 0) + l.getD (i - 7) 0 +
              sha0 (l.getD (i - 15) 0) + l.getD (i - 16) 0) % w32])

/-- One SHA-256 round on the eight-word working state. -/
def shaRound (st : List Nat) (kw : Nat × Nat) : List Nat :=
  match st with
  | [a, b, c, d, e, f, g, h] =>
    let t1 := (h + shaS1 e + shaCh e f g + kw.1 + kw.2) % w32
    let t2 := (shaS0 a + shaMaj a b c) % w32
    [(t1 + t2) % w32, a, b, c, (d + t1) % w32, e, f, g]
  | other => other

/-- Compression of one block into the chaining state. -/
def shaCompress (h : List Nat) (block : List Nat) : List Nat :=
  let st := (shaK.zip (extendW 48 (toWords block))).foldl shaRound h
  (h.zip st).map (fun p => (p.1 + p.2) % w32)

/-- SHA-256 of a byte list. -/
def sha256 (msg : List Nat) : List Nat :=
  let padded := padMsg msg
  ((chunks64 padded.length padded).foldl shaCompress shaH0).foldr
    (fun wd acc => be32 wd ++ acc) []

/-- HMAC-SHA256 (`crypto/hmac` with a 64-byte block size). -/
def hmacSha256 (key msg : List Nat) : List Nat :=
  let k0 := if 64 < key.length then sha256 key else key
  let kp := k0 ++ List.replicate (64 - k0.length) 0
  sha256 ((kp.map (fun b => b ^^^ 92)) ++
    sha256 ((kp.map (fun b => b ^^^ 54)) ++ msg))

/-- One lower-case hex digit as its ASCII byte. -/
def hexDigit (n : Nat) : Nat := if n < 10 then 48 + n else 87 + n

/-- `hex.EncodeToString` as a byte list. -/
def hexBytes (l : List Nat) : List Nat :=
  l.foldr (fun b acc => hexDigit ((b >>> 4) % 16) :: hexDigit (b % 16) :: acc) []

/-- The acceptance predicate of `hmacMiddleware` (`main.go`), identically
implemented by `validateSharedSecret` in the webhook-security helper: with
an empty secret every request passes; a missing signature is rejected;
otherwise the signature must equal, byte for byte, the lower-case hex
HMAC-SHA256 of the raw body keyed by the secret. -/
def validSig (body sig secret : List Nat) : Bool :=
  if secret == [] then true
  else if sig == [] then false
  else sig == hexBytes (hmacSha256 secret body)

/-! ## The admission chain (`main.go`)

`mux.Handle("/webhook", wrap(handler, rateLimitMiddleware(rl),
idempotencyMiddleware(idStore), hmacMiddleware(webhookSecret)))`.
A handler consumes a request, the wall-clock instant and the shared
mutable state, producing an HTTP status and the new state. -/

/-- The request data the admission chain inspects. -/
structure Request where
  ip : Str
  idemKey : Str
  signature : List Nat
  body : List Nat
  deriving DecidableEq

/-- The process-wide mutable state the chain touches, plus the list of
bodies the innermost handler has processed (to observe whether it ran). -/
structure PipeState where
  rl : RateLimiter
  idem : IdemStore
  handled : List (List Nat)
  deriving DecidableEq

def PHandler := Request → ℚ → PipeState → Nat × PipeState

def Middleware := PHandler → PHandler

/-- `rateLimitMiddleware`: reject with 429 when the per-IP bucket refuses. -/
def rateLimitMW : Middleware := fun next req now st =>
  let p := st.rl.allow now req.ip
  if p.2 then next req now { st with rl := p.1 }
  else (429, { st with rl := p.1 })

/-- `idempotencyMiddleware`: with a non-empty `Idempotency-Key` that the
store has seen, reject with 409; `seen` is only called for a non-empty
key, and records a first-seen key as a side effect. -/
def idempotencyMW : Middleware := fun next req now st =>
  if req.idemKey == [] then next req now st
  else
    let p := st.idem.seen now req.idemKey
    if p.1 then (409, { st with idem := p.2 })
    else next req now { st with idem := p.2 }

/-- `hmacMiddleware`: with an empty secret the middleware is the identity;
otherwise a missing signature or a signature different from the hex
HMAC-SHA256 of the body is rejected with 401. -/
def hmacMW (secret : List Nat) : Middleware := fun next =>
  if secret == [] then next
  else fun req now st =>
    if req.signature == [] then (401, st)
    else if req.signature == hexBytes (hmacSha256 secret req.body) then
      next req now st
    else (401, st)

/-- `wrap(h, m0, m1, m2) = m0(m1(m2(h)))`. -/
def wrap (h : PHandler) (mws : List Middleware) : PHandler :=
  mws.foldr (fun m acc => m acc) h

/-- A stand-in for `h.WebhookHandler`: succeeds with 200 and records the
body it processed. -/
def webhookStub : PHandler := fun req _ st =>
  (200, { st with handled := st.handled ++ [req.body] })

/-- The `/webhook` admission chain exactly as composed in `main.go`. -/
def webhookPipeline (secret : List Nat) : PHandler :=
  wrap webhookStub [rateLimitMW, idempotencyMW, hmacMW secret]

/-! ## Association-list lookup lemmas -/

theorem find?_upsert {β : Type} (l : List (Str × β)) (key k : Str) (v : β) :
    ((((key, v) :: l.filter (fun p => !(p.1 == key))).find?
        (fun p => p.1 == k)).map (fun p => p.2)) =
      if key = k then some v
      else ((l.find? (fun p => p.1 == k)).map (fun p => p.2)) := by
  by_cases h : key = k
  · subst h
    rw [List.find?_cons_of_pos _ (by simp)]
    simp
  · rw [List.find?_cons_of_neg _ (by simpa using h), if_neg h]
    induction l with
    | nil => rfl
    | cons hd tl ih =>
      by_cases hh : hd.1 = key
      · have hnk : ¬ (hd.1 == k) = true := by simpa using (hh ▸ h : ¬ hd.1 = k)
        rw [List.filter_cons_of_neg (by simpa using hh),
          List.find?_cons_of_neg (p := fun q : Str × β => q.1 == k) _ hnk]
        exact ih
      · rw [List.filter_cons_of_pos (by simpa using hh)]
        by_cases hk : hd.1 = k
        · rw [List.find?_cons_of_pos (p := fun q : Str × β => q.1 == k) _ (by simpa using hk),
            List.find?_cons_of_pos (p := fun q : Str × β => q.1 == k) _ (by simpa using hk)]
        · rw [List.find?_cons_of_neg (p := fun q : Str × β => q.1 == k) _ (by simpa using hk),
            List.find?_cons_of_neg (p := fun q : Str × β => q.1 == k) _ (by simpa using hk)]
          exact ih

theorem find?_del {β : Type} (l : List (Str × β)) (ks : List Str) (k : Str) :
    (((l.filter (fun p => !(ks.contains p.1))).find?
        (fun p => p.1 == k)).map (fun p => p.2)) =
      if ks.contains k then none
      else ((l.find? (fun p => p.1 == k)).map (fun p => p.2)) := by
  induction l with
  | nil => simp
  | cons hd tl ih =>
    by_cases hc : ks.contains hd.1 = true
    · rw [List.filter_cons_of_neg (by simpa using hc)]
      by_cases hk : hd.1 = k
      · subst hk
        rw [ih, if_pos hc, if_pos hc]
      · rw [ih, List.find?_cons_of_neg (p := fun q : Str × β => q.1 == k) _ (by simpa using hk)]
    · rw [List.filter_cons_of_pos (by simpa using hc)]
      by_cases hk : hd.1 = k
      · subst hk
        rw [List.find?_cons_of_pos (p := fun q : Str × β => q.1 == hd.1) _ (by simp),
          List.find?_cons_of_pos (p := fun q : Str × β => q.1 == hd.1) _ (by simp),
          if_neg (by simpa using hc)]
      · rw [List.find?_cons_of_neg (p := fun q : Str × β => q.1 == k) _ (by simpa using hk),
          List.find?_cons_of_neg (p := fun q : Str × β => q.1 == k) _ (by simpa using hk), ih]

theorem find?_of_mem_nodup {β : Type} {l : List (Str × β)} {k : Str} {v : β}
    (hmem : (k, v) ∈ l) (hnd : (l.map (fun p => p.1)).Nodup) :
    l.find? (fun p => p.1 == k) = some (k, v) := by
  induction l with
  | nil => simp at hmem
  | cons hd tl ih =>
    rcases List.mem_cons.mp hmem with h | h
    · subst h
      simp [List.find?]
    · have hne : hd.1 ≠ k := by
        intro he
        have : hd.1 ∈ tl.map (fun p => p.1) :=
          he ▸ List.mem_map.mpr ⟨(k, v), h, rfl⟩
        exact (List.nodup_cons.mp hnd).1 this
      have hb : (hd.1 == k) = false := beq_false_of_ne hne
      simp only [List.find?, hb]
      exact ih h (List.nodup_cons.mp hnd).2

/-! ## Key-name disjointness -/

theorem leadsWith_append {p q : Str} (x : Str) (h : leadsWith p q = true) :
    leadsWith p (q ++ x) = true := by
  induction p generalizing q with
  | nil => rfl
  | cons c cs ih =>
    cases q with
    | nil => simp [leadsWith] at h
    | cons d ds =>
      simp only [leadsWith, Bool.and_eq_true] at h ⊢
      exact ⟨h.1, ih h.2⟩

theorem ne_of_leadsWith {p a b : Str} (ha : leadsWith p a = true)
    (hb : leadsWith p b = false) : a ≠ b := by
  intro h
  rw [h] at ha
  simp [ha] at hb

theorem alertKey_ne_keyNextId (id : Nat) : alertKey id ≠ keyNextId := by
  intro h
  have hsplit : keyNextId = str "alert:" ++ str "next_id" := by decide
  rw [hsplit] at h
  unfold alertKey at h
  have hdec : natToDec id = str "next_id" := List.append_cancel_left h
  have hmem : 'n' ∈ natToDec id := by
    rw [hdec]; decide
  have h1 := natToDec_digits hmem
  have h2 : ('n' : Char).toNat = 110 := by decide
  omega

theorem levelKey_ne_keyNextId (l : Str) : levelKey l ≠ keyNextId := by
  refine ne_of_leadsWith (p := str "alerts:") ?_ (by decide)
  have : levelKey l = str "alerts:" ++ (str "level:" ++ strLower l) := by
    simp [levelKey, str]
  rw [this]
  exact leadsWith_append _ (by decide)

theorem sourceKey_ne_keyNextId (s : Str) : sourceKey s ≠ keyNextId := by
  refine ne_of_leadsWith (p := str "alerts:") ?_ (by decide)
  have : sourceKey s = str "alerts:" ++ (str "source:" ++ strLower s) := by
    simp [sourceKey, str]
  rw [this]
  exact leadsWith_append _ (by decide)

theorem levelKey_ne_keyTimeline (l : Str) : levelKey l ≠ keyTimeline := by
  refine ne_of_leadsWith (p := str "alerts:level:") ?_ (by decide)
  exact leadsWith_append _ (by decide)

theorem sourceKey_ne_keyTimeline (s : Str) : sourceKey s ≠ keyTimeline := by
  refine ne_of_leadsWith (p := str "alerts:source:") ?_ (by decide)
  exact leadsWith_append _ (by decide)

theorem leadsWith_append_of_le {p q : Str} (x : Str) (h : p.length ≤ q.length) :
    leadsWith p (q ++ x) = leadsWith p q := by
  induction p generalizing q with
  | nil => rfl
  | cons c cs ih =>
    cases q with
    | nil => simp at h
    | cons d ds =>
      show (c == d && leadsWith cs (ds ++ x)) = (c == d && leadsWith cs ds)
      rw [ih (by simpa using h)]

theorem levelKey_ne_sourceKey (l s : Str) : levelKey l ≠ sourceKey s := by
  refine ne_of_leadsWith (p := str "alerts:level:") ?_ ?_
  · exact leadsWith_append _ (by decide)
  · show leadsWith (str "alerts:level:") (str "alerts:source:" ++ strLower s) = false
    rw [leadsWith_append_of_le _ (by decide)]
    decide

/-! ## Per-operation characterizations of the Redis model -/

theorem find_setKey (r : Redis) (key k : Str) (v : RVal) :
    (r.setKey key v).find k = if key = k then some v else r.find k :=
  find?_upsert r.kv key k v

theorem find_del (r : Redis) (ks : List Str) (k : Str) :
    (r.del ks).find k = if ks.contains k then none else r.find k :=
  find?_del r.kv ks k

theorem get_setKey (r : Redis) (now : Nat) (key k : Str) (v : RVal) :
    (r.setKey key v).get now k = if key = k then (if v.liveAt now then some v else none)
      else r.get now k := by
  unfold Redis.get
  rw [find_setKey]
  by_cases h : key = k <;> simp [h]

theorem get_del (r : Redis) (now : Nat) (ks : List Str) (k : Str) :
    (r.del ks).get now k = if ks.contains k then none else r.get now k := by
  unfold Redis.get
  rw [find_del]
  by_cases h : k ∈ ks <;> simp [h]

/-- The record (live alert) visible at a key: the observation every read
path of the store makes (an unmarshal failure or an expired record is a
skip). -/
def recOf (r : Redis) (now : Nat) (k : Str) : Option Alert :=
  match r.get now k with
  | some (.rstr a _) => some a
  | _ => none

theorem recOf_zrem (r : Redis) (now : Nat) (K m k : Str) :
    recOf (r.zrem now K m) now k = recOf r now k := by
  unfold Redis.zrem
  cases hg : r.get now K with
  | none => rfl
  | some v =>
    cases v with
    | rzset l =>
      unfold recOf
      rw [get_setKey]
      by_cases h : K = k
      · subst h
        simp only [if_pos rfl, hg]
        rfl
      · simp [h]
    | rstr a e => rfl
    | rint n => rfl
    | rset mem e => rfl

theorem recOf_srem (r : Redis) (now : Nat) (K m k : Str) :
    recOf (r.srem now K m) now k = recOf r now k := by
  unfold Redis.srem
  cases hg : r.get now K with
  | none => rfl
  | some v =>
    cases v with
    | rset mem e =>
      unfold recOf
      rw [get_setKey]
      by_cases h : K = k
      · subst h
        simp only [if_pos rfl, hg]
        cases he : RVal.liveAt (.rset (mem.filter (fun x => !(x == m))) e) now
        · rfl
        · rfl
      · simp [h]
    | rstr a e => rfl
    | rint n => rfl
    | rzset l => rfl

theorem recOf_del (r : Redis) (now : Nat) (ks : List Str) (k : Str) :
    recOf (r.del ks) now k = if ks.contains k then none else recOf r now k := by
  unfold recOf
  rw [get_del]
  by_cases h : k ∈ ks <;> simp [h]

/-- The timeline's member list (raw; the timeline never carries a TTL). -/
def tlList (r : Redis) : List (Nat × Str) :=
  match r.find keyTimeline with
  | some (.rzset l) => l
  | _ => []

theorem zrevrangeAll_timeline (r : Redis) (now : Nat) :
    r.zrevrangeAll now keyTimeline = ((tlList r).map (fun p => p.2)).reverse := by
  unfold Redis.zrevrangeAll Redis.get tlList
  cases hf : r.find keyTimeline with
  | none => rfl
  | some v =>
    cases v with
    | rzset l => rfl
    | rint n => rfl
    | rstr a e => cases h : (RVal.rstr a e).liveAt now <;> simp [h]
    | rset mem e => cases h : (RVal.rset mem e).liveAt now <;> simp [h]

theorem getAlertsGo_snd (now : Nat) (r : Redis) (L : List Str) :
    (getAlertsGo now r L).2 = L.filterMap (recOf r now) := by
  induction L generalizing r with
  | nil => rfl
  | cons k rest ih =>
    unfold getAlertsGo
    cases hg : r.get now k with
    | some v =>
      cases v with
      | rstr a e =>
        simp only [List.filterMap_cons]
        have : recOf r now k = some a := by unfold recOf; rw [hg]
        rw [this, ih]
      | rint n =>
        have : recOf r now k = none := by unfold recOf; rw [hg]
        simp only [List.filterMap_cons, this, ih]
      | rzset l =>
        have : recOf r now k = none := by unfold recOf; rw [hg]
        simp only [List.filterMap_cons, this, ih]
      | rset mem e =>
        have : recOf r now k = none := by unfold recOf; rw [hg]
        simp only [List.filterMap_cons, this, ih]
    | none =>
      have hr : recOf r now k = none := by unfold recOf; rw [hg]
      simp only [List.filterMap_cons, hr, ih]
      have : recOf (r.zrem now keyTimeline k) now = recOf r now :=
        funext (fun k' => recOf_zrem r now keyTimeline k k')
      rw [this]

theorem getAlerts_snd (r : Redis) (now : Nat) :
    (getAlerts r now).2 =
      (r.zrevrangeAll now keyTimeline).filterMap (recOf r now) :=
  getAlertsGo_snd now r _

/-- Whether the text query keeps an alert (`q` already lower-cased). -/
def queryKeeps (q : Str) (a : Alert) : Bool :=
  q == [] || hasSub (strLower (searchText a)) q

theorem collectAlerts_eq (r : Redis) (now : Nat) (q : Str) (L : List Str) :
    collectAlerts r now q L =
      (L.filterMap (recOf r now)).filter (queryKeeps q) := by
  induction L with
  | nil => rfl
  | cons k rest ih =>
    unfold collectAlerts
    cases hg : r.get now k with
    | some v =>
      cases v with
      | rstr a e =>
        have hr : recOf r now k = some a := by unfold recOf; rw [hg]
        have hc : (q == [] || hasSub (strLower (searchText a)) q) = queryKeeps q a := rfl
        simp only [List.filterMap_cons, hr, List.filter_cons, hc]
        cases hqq : queryKeeps q a with
        | true => simp only [hqq, if_true, ih]
        | false => simp only [hqq, Bool.false_eq_true, if_false, ih]
      | rint n =>
        have hr : recOf r now k = none := by unfold recOf; rw [hg]
        simpa [List.filterMap_cons, hr] using ih
      | rzset l =>
        have hr : recOf r now k = none := by unfold recOf; rw [hg]
        simpa [List.filterMap_cons, hr] using ih
      | rset mem e =>
        have hr : recOf r now k = none := by unfold recOf; rw [hg]
        simpa [List.filterMap_cons, hr] using ih
    | none =>
      have hr : recOf r now k = none := by unfold recOf; rw [hg]
      simpa [List.filterMap_cons, hr] using ih

/-! ## Find-preservation of writes at other keys -/

theorem find_zadd_ne (r : Redis) (now : Nat) {K k : Str} (sc : Nat) (m : Str)
    (h : K ≠ k) : (r.zadd now K sc m).find k = r.find k := by
  unfold Redis.zadd
  rw [find_setKey, if_neg h]

theorem find_zrem_ne (r : Redis) (now : Nat) {K k : Str} (m : Str)
    (h : K ≠ k) : (r.zrem now K m).find k = r.find k := by
  unfold Redis.zrem
  cases hg : r.get now K with
  | none => rfl
  | some v =>
    cases v with
    | rzset l => rw [find_setKey, if_neg h]
    | rstr a e => rfl
    | rint n => rfl
    | rset mem e => rfl

theorem find_sadd_ne (r : Redis) (now : Nat) {K k : Str} (m : Str)
    (h : K ≠ k) : (r.sadd now K m).find k = r.find k := by
  unfold Redis.sadd
  cases hg : r.get now K with
  | none => rw [find_setKey, if_neg h]
  | some v =>
    cases v with
    | rset mem e => rw [find_setKey, if_neg h]
    | rstr a e => rw [find_setKey, if_neg h]
    | rint n => rw [find_setKey, if_neg h]
    | rzset l => rw [find_setKey, if_neg h]

theorem find_srem_ne (r : Redis) (now : Nat) {K k : Str} (m : Str)
    (h : K ≠ k) : (r.srem now K m).find k = r.find k := by
  unfold Redis.srem
  cases hg : r.get now K with
  | none => rfl
  | some v =>
    cases v with
    | rset mem e => rw [find_setKey, if_neg h]
    | rstr a e => rfl
    | rint n => rfl
    | rzset l => rfl

theorem find_expire_ne (r : Redis) (now : Nat) {K k : Str} (dl : Nat)
    (h : K ≠ k) : (r.expireKey now K dl).find k = r.find k := by
  unfold Redis.expireKey
  cases hg : r.get now K with
  | none => rfl
  | some v =>
    cases v with
    | rstr a e => rw [find_setKey, if_neg h]
    | rset mem e => rw [find_setKey, if_neg h]
    | rint n => rfl
    | rzset l => rfl

/-! ## The id counter across store operations (claim C1) -/

/-- The value the id counter will be incremented from (0 when the counter
key is absent or holds a non-integer value). -/
def cnt (r : Redis) : Nat :=
  match r.find keyNextId with
  | some (.rint n) => n
  | _ => 0

theorem incr_next (r : Redis) (now : Nat) :
    r.incr now keyNextId = (r.setKey keyNextId (.rint (cnt r + 1)), cnt r + 1) := by
  unfold Redis.incr Redis.get cnt
  cases hf : r.find keyNextId with
  | none => rfl
  | some v =>
    cases v with
    | rint n => rfl
    | rstr a e =>
      cases h : (RVal.rstr a e).liveAt now <;> simp [h]
    | rzset l => rfl
    | rset mem e =>
      cases h : (RVal.rset mem e).liveAt now <;> simp [h]

theorem addAlert_next (r : Redis) (now : Nat) (s l t m : Str) :
    (addAlert r now s l t m).1.find keyNextId = some (.rint (cnt r + 1)) ∧
    (addAlert r now s l t m).2.id = cnt r + 1 := by
  unfold addAlert
  rw [incr_next]
  dsimp only
  refine ⟨?_, rfl⟩
  by_cases hs : (s == []) = true <;> by_cases hl : (l == []) = true <;>
    simp only [hs, hl, if_true, Bool.false_eq_true, if_false] <;>
    repeat
      first
      | rw [find_expire_ne _ _ _ (sourceKey_ne_keyNextId _)]
      | rw [find_sadd_ne _ _ _ (sourceKey_ne_keyNextId _)]
      | rw [find_expire_ne _ _ _ (levelKey_ne_keyNextId _)]
      | rw [find_sadd_ne _ _ _ (levelKey_ne_keyNextId _)]
      | rw [find_zadd_ne _ _ _ _ (by decide)]
      | rw [find_setKey, if_neg (alertKey_ne_keyNextId _)]
      | rw [find_setKey, if_pos rfl]

theorem cnt_addAlert (r : Redis) (now : Nat) (s l t m : Str) :
    cnt (addAlert r now s l t m).1 = cnt r + 1 := by
  have h := (addAlert_next r now s l t m).1
  unfold cnt
  rw [h]
  rfl

theorem cnt_getAlertsGo (now : Nat) (r : Redis) (L : List Str) :
    cnt (getAlertsGo now r L).1 = cnt r := by
  induction L generalizing r with
  | nil => rfl
  | cons k rest ih =>
    unfold getAlertsGo
    cases hg : r.get now k with
    | some v =>
      cases v with
      | rstr a e => exact ih r
      | rint n => exact ih r
      | rzset l => exact ih r
      | rset mem e => exact ih r
    | none =>
      rw [ih]
      unfold cnt
      rw [find_zrem_ne _ _ _ (by decide)]

theorem get_some_find {r : Redis} {now : Nat} {k : Str} {v : RVal}
    (h : r.get now k = some v) : r.find k = some v ∧ v.liveAt now = true := by
  unfold Redis.get at h
  cases hf : r.find k with
  | none => rw [hf] at h; exact absurd h (by simp)
  | some w =>
    rw [hf] at h
    dsimp only at h
    by_cases hl : w.liveAt now = true
    · rw [if_pos hl] at h
      have hw : w = v := Option.some.inj h
      subst hw
      exact ⟨rfl, hl⟩
    · rw [if_neg hl] at h
      exact absurd h (by simp)

theorem cnt_del_single (r : Redis) (now : Nat) (k : Str) {a : Alert}
    {e : Option Nat} (h : r.get now k = some (.rstr a e)) :
    cnt (r.del [k]) = cnt r := by
  have hf := (get_some_find h).1
  unfold cnt
  rw [find_del]
  by_cases hk : keyNextId = k
  · subst hk
    rw [if_pos (by simp), hf]
  · rw [if_neg (by simpa using hk)]

theorem cnt_purgeChatGo (now : Nat) (tag : Str) (L : List Str) (r : Redis) :
    cnt (purgeChatGo now tag r L) = cnt r := by
  induction L generalizing r with
  | nil => rfl
  | cons k rest ih =>
    unfold purgeChatGo
    cases hg : r.get now k with
    | some v =>
      cases v with
      | rstr a e =>
        by_cases hm : hasSub a.source tag = true
        · simp only [hm, if_true]
          rw [ih]
          unfold cnt
          rw [find_srem_ne _ _ _ (sourceKey_ne_keyNextId _),
            find_srem_ne _ _ _ (levelKey_ne_keyNextId _),
            find_zrem_ne _ _ _ (by decide)]
          have := cnt_del_single r now k hg
          unfold cnt at this
          exact this
        · simp only [Bool.not_eq_true] at hm
          simp only [hm, Bool.false_eq_true, if_false]
          exact ih r
      | rint n => exact ih r
      | rzset l => exact ih r
      | rset mem e => exact ih r
    | none => exact ih r

theorem cnt_purgeAlertsByChat (r : Redis) (now : Nat) (c : Str) :
    cnt (purgeAlertsByChat r now c) = cnt r :=
  cnt_purgeChatGo now _ _ r

theorem cnt_clearAlerts (r : Redis) : cnt (clearAlerts r) = cnt r := by
  unfold cnt clearAlerts
  rw [find_del, if_neg (by decide)]

/-- One client-visible operation on the alert store, with the wall-clock
instant at which it runs. -/
inductive StoreOp where
  | add (now : Nat) (source level title message : Str)
  | listAll (now : Nat)
  | searchOp (now : Nat) (q level source : Str)
  | purgeAll (now : Nat)
  | purgeChat (now : Nat) (chatID : Str)
  | clear
  deriving DecidableEq

/-- Run one operation; the second component collects the id `AddAlert`
returned (empty for the other operations; `SearchAlerts` reads only). -/
def stepOp (r : Redis) : StoreOp → Redis × List Nat
  | .add now s l t m => ((addAlert r now s l t m).1, [(addAlert r now s l t m).2.id])
  | .listAll now => ((getAlerts r now).1, [])
  | .searchOp _ _ _ _ => (r, [])
  | .purgeAll now => (purgeAllAlerts r now, [])
  | .purgeChat now c => (purgeAlertsByChat r now c, [])
  | .clear => (clearAlerts r, [])

/-- Run a sequence of operations, collecting all returned ids in order. -/
def runOps : Redis → List StoreOp → Redis × List Nat
  | r, [] => (r, [])
  | r, op :: rest =>
    ((runOps (stepOp r op).1 rest).1,
      (stepOp r op).2 ++ (runOps (stepOp r op).1 rest).2)

/-- No `PurgeAllAlerts` among the operations. -/
def noPurgeAll (ops : List StoreOp) : Bool :=
  ops.all (fun op => match op with | .purgeAll _ => false | _ => true)

theorem runOps_chain (ops : List StoreOp) (r : Redis)
    (h : noPurgeAll ops = true) :
    List.Chain (· < ·) (cnt r) (runOps r ops).2 := by
  induction ops generalizing r with
  | nil => exact List.Chain.nil
  | cons op rest ih =>
    have hrest : noPurgeAll rest = true := by
      unfold noPurgeAll at h ⊢
      rw [List.all_cons, Bool.and_eq_true] at h
      exact h.2
    cases op with
    | add now s l t m =>
      unfold runOps stepOp
      have hid := (addAlert_next r now s l t m).2
      have hc := cnt_addAlert r now s l t m
      simp only [List.cons_append, List.nil_append, hid]
      exact List.Chain.cons (by omega) (hc ▸ ih _ hrest)
    | listAll now =>
      unfold runOps stepOp
      simp only [List.nil_append]
      have : cnt (getAlerts r now).1 = cnt r := cnt_getAlertsGo now r _
      exact this ▸ ih _ hrest
    | searchOp now q l s =>
      unfold runOps stepOp
      simp only [List.nil_append]
      exact ih _ hrest
    | purgeAll now => simp [noPurgeAll] at h
    | purgeChat now c =>
      unfold runOps stepOp
      simp only [List.nil_append]
      have := cnt_purgeAlertsByChat r now c
      exact this ▸ ih _ hrest
    | clear =>
      unfold runOps stepOp
      simp only [List.nil_append]
      have := cnt_clearAlerts r
      exact this ▸ ih _ hrest

/-- C1 (amended): across every sequence of store operations that contains
no `PurgeAllAlerts`, the ids returned by `AddAlert` are strictly
increasing, hence unique. -/
theorem C1_ids_strictly_increasing (r : Redis) (ops : List StoreOp)
    (h : noPurgeAll ops = true) :
    List.Chain' (· < ·) (runOps r ops).2 ∧ (runOps r ops).2.Nodup := by
  have hc : List.Chain' (· < ·) (cnt r :: (runOps r ops).2) := runOps_chain ops r h
  have hch : List.Chain' (· < ·) (runOps r ops).2 := hc.tail
  refine ⟨hch, ?_⟩
  have hp : List.Pairwise (· < ·) (runOps r ops).2 :=
    List.chain'_iff_pairwise.mp hch
  exact hp.imp Nat.ne_of_lt

/-- The operations of the C1 counterexample: an add, a purge-all, an add. -/
def opsC1 : List StoreOp :=
  [.add 5000000000 (str "s") (str "info") (str "t") (str "m"),
   .purgeAll 5000000001,
   .add 5000000002 (str "s") (str "info") (str "t") (str "m")]

/-- C1 counterexample: `PurgeAllAlerts` scans `alert:*`, which also
matches the counter key `alert:next_id`; the adds around it both return
id 1, so the ids of the full sequence are neither strictly increasing nor
unique. -/
theorem C1_counterexample :
    (runOps Redis.empty opsC1).2 = [1, 1] ∧
    ¬ List.Chain' (· < ·) ([1, 1] : List Nat) ∧
    ¬ ([1, 1] : List Nat).Nodup := by
  refine ⟨by decide, ?_, by decide⟩
  simp [List.chain'_cons]

/-- C1 witness: a purge-all-free sequence (with a chat purge interleaved)
satisfies the hypothesis, and the theorem applies. -/
def opsC1w : List StoreOp :=
  [.add 5000000000 (str "bot:a:chat:42") (str "info") (str "t") (str "m"),
   .purgeChat 5000000001 (str "42"),
   .add 5000000002 (str "s") (str "info") (str "t") (str "m")]

theorem C1_ids_strictly_increasing_witness :
    noPurgeAll opsC1w = true ∧
    (List.Chain' (· < ·) (runOps Redis.empty opsC1w).2 ∧
      (runOps Redis.empty opsC1w).2.Nodup) :=
  ⟨by decide, C1_ids_strictly_increasing Redis.empty opsC1w (by decide)⟩

/-! ## Claim C4: the idempotency filter -/

/-- C4: `seen` ignores the empty key without side effect; a first call for
a non-empty key is unseen and records expiry `now + ttl`; a later call
strictly before that expiry is seen without extending it; a call at or
after the expiry is unseen again and re-records the key. -/
theorem C4_seen_contract (s : IdemStore) (now : ℚ) (key : Str) :
    (key = [] → s.seen now key = (false, s)) ∧
    (key ≠ [] → lookupItem s key = none →
      s.seen now key = (false, setItem s key (now + s.ttl))) ∧
    (∀ e : ℚ, key ≠ [] → lookupItem s key = some e → now < e →
      s.seen now key = (true, s)) ∧
    (∀ e : ℚ, key ≠ [] → lookupItem s key = some e → e ≤ now →
      s.seen now key = (false, setItem s key (now + s.ttl))) := by
  refine ⟨?_, ?_, ?_, ?_⟩
  · intro h
    subst h
    rfl
  · intro h hl
    unfold IdemStore.seen
    rw [if_neg (by simpa using h), hl]
  · intro e h hl he
    unfold IdemStore.seen
    rw [if_neg (by simpa using h), hl]
    simp [he]
  · intro e h hl he
    unfold IdemStore.seen
    rw [if_neg (by simpa using h), hl]
    simp [not_lt.mpr he]

/-- C4 witness: the first-call case at a concrete key and store. -/
theorem C4_seen_contract_witness :
    (str "k" ≠ [] ∧ lookupItem (newIdemStore 600) (str "k") = none) ∧
    (newIdemStore 600).seen 5 (str "k") =
      (false, setItem (newIdemStore 600) (str "k") (5 + 600)) :=
  ⟨⟨by decide, rfl⟩,
    (C4_seen_contract (newIdemStore 600) 5 (str "k")).2.1 (by decide) rfl⟩

/-! ## Claim C5: the signature check -/

theorem shaRound_length (st : List Nat) (kw : Nat × Nat) :
    (shaRound st kw).length = st.length := by
  unfold shaRound
  rcases st with _ | ⟨a, _ | ⟨b, _ | ⟨c, _ | ⟨d, _ | ⟨e, _ | ⟨f, _ | ⟨g,
    _ | ⟨h, _ | ⟨i, t⟩⟩⟩⟩⟩⟩⟩⟩⟩ <;> rfl

theorem foldl_shaRound_length (kws : List (Nat × Nat)) (st : List Nat) :
    (kws.foldl shaRound st).length = st.length := by
  induction kws generalizing st with
  | nil => rfl
  | cons kw rest ih => rw [List.foldl_cons, ih, shaRound_length]

theorem shaCompress_length (h block : List Nat) :
    (shaCompress h block).length = h.length := by
  unfold shaCompress
  rw [List.length_map, List.length_zip, foldl_shaRound_length, Nat.min_self]

theorem foldl_shaCompress_length (blocks : List (List Nat)) (h : List Nat) :
    (blocks.foldl shaCompress h).length = h.length := by
  induction blocks generalizing h with
  | nil => rfl
  | cons b rest ih => rw [List.foldl_cons, ih, shaCompress_length]

theorem sha256_ne_nil (msg : List Nat) : sha256 msg ≠ [] := by
  unfold sha256
  dsimp only
  intro h
  have hl : ((chunks64 (padMsg msg).length (padMsg msg)).foldl shaCompress
      shaH0).length = 8 := foldl_shaCompress_length _ _
  rcases hh : (chunks64 (padMsg msg).length (padMsg msg)).foldl shaCompress
      shaH0 with _ | ⟨w, rest⟩
  · rw [hh] at hl
    exact absurd hl (by decide)
  · rw [hh] at h
    simp [be32] at h

theorem hexBytes_ne_nil {l : List Nat} (h : l ≠ []) : hexBytes l ≠ [] := by
  cases l with
  | nil => exact absurd rfl h
  | cons b rest => simp [hexBytes]

/-- C5: with a non-empty secret, the check accepts exactly the signature
that equals the lower-case hex HMAC-SHA256 of the raw body under the
secret; with an empty secret every request is accepted. -/
theorem C5_signature_check (body sig secret : List Nat) :
    (secret = [] → validSig body sig secret = true) ∧
    (secret ≠ [] → (validSig body sig secret = true ↔
      sig = hexBytes (hmacSha256 secret body))) := by
  constructor
  · intro h
    subst h
    rfl
  · intro h
    unfold validSig
    rw [if_neg (by simpa using h)]
    by_cases hs : sig = []
    · subst hs
      rw [if_pos (by simp)]
      constructor
      · intro hf
        exact absurd hf (by simp)
      · intro he
        exact absurd he.symm (hexBytes_ne_nil (sha256_ne_nil _))
    · rw [if_neg (by simpa using hs)]
      exact beq_iff_eq

/-- C5 witness: a concrete non-empty secret; instantiating the accepting
branch of the equivalence at the matching signature. -/
theorem C5_signature_check_witness :
    ([107] : List Nat) ≠ [] ∧
    (validSig [97] (hexBytes (hmacSha256 [107] [97])) [107] = true ↔
      hexBytes (hmacSha256 [107] [97]) = hexBytes (hmacSha256 [107] [97])) :=
  ⟨by decide, (C5_signature_check [97] (hexBytes (hmacSha256 [107] [97]))
    [107]).2 (by decide)⟩

/-! ## Claim C3: one `allow` step on an existing bucket -/

/-- C3 (amended): on an existing bucket, `allow` replenishes by
`rate * elapsed / refill` and clamps to the capacity; if the result is
below one token it returns `false`, storing the replenished count while
leaving the last-refill instant unchanged; otherwise it deducts one
token, advances the instant to `now`, and returns `true`. -/
theorem C3_allow_existing (rl : RateLimiter) (now : ℚ) (key : Str)
    (b : TokenBucket) (hb : lookupBucket rl key = some b) :
    (minFloat rl.burst (b.tokens + rl.rate * (now - b.last) / rl.refill) < 1 →
      rl.allow now key =
        (setBucket rl key
          ⟨minFloat rl.burst (b.tokens + rl.rate * (now - b.last) / rl.refill),
            b.last⟩, false)) ∧
    (1 ≤ minFloat rl.burst (b.tokens + rl.rate * (now - b.last) / rl.refill) →
      rl.allow now key =
        (setBucket rl key
          ⟨minFloat rl.burst (b.tokens + rl.rate * (now - b.last) / rl.refill) - 1,
            now⟩, true)) := by
  constructor
  · intro h
    unfold RateLimiter.allow
    rw [hb]
    simp only [h, if_true]
  · intro h
    unfold RateLimiter.allow
    rw [hb]
    simp only [not_lt.mpr h, Bool.false_eq_true, if_false]

theorem lookupBucket_setBucket (rl : RateLimiter) (K k : Str)
    (b : TokenBucket) :
    lookupBucket (setBucket rl K b) k =
      if K = k then some b else lookupBucket rl k :=
  find?_upsert rl.buckets K k b

/-- The concrete limiter of the C3 counterexample: rate 60/s, burst 30,
refill period 1 s, one bucket for key `ip` holding 0 tokens, last refill
at instant 0. -/
def rlC3 : RateLimiter :=
  { buckets := [(str "ip", ⟨0, 0⟩)], rate := 60, burst := 30, refill := 1 }

/-- C3 counterexample: at `now = 1/120 s` the replenished count is `1/2`,
the call is rejected — and the stored token count has changed from 0 to
`1/2`, so the bucket is not left unchanged as the claim states. -/
theorem C3_counterexample :
    (rlC3.allow (1/120) (str "ip")).2 = false ∧
    lookupBucket (rlC3.allow (1/120) (str "ip")).1 (str "ip") =
      some ⟨1/2, 0⟩ ∧
    ((1 : ℚ)/2 ≠ 0) := by
  have hb : lookupBucket rlC3 (str "ip") = some ⟨0, 0⟩ := rfl
  have h := (C3_allow_existing rlC3 (1/120) (str "ip") ⟨0, 0⟩ hb).1
  have href : minFloat rlC3.burst
      ((⟨0, 0⟩ : TokenBucket).tokens +
        rlC3.rate * ((1/120 : ℚ) - (⟨0, 0⟩ : TokenBucket).last) / rlC3.refill) =
      1/2 := by
    show minFloat 30 ((0 : ℚ) + 60 * ((1/120 : ℚ) - 0) / 1) = 1/2
    unfold minFloat
    norm_num
  rw [href] at h
  have happ := h (by norm_num)
  refine ⟨by rw [happ], ?_, by norm_num⟩
  rw [happ]
  dsimp only
  rw [lookupBucket_setBucket, if_pos rfl]

/-- C3 witness for the amended step theorem: the same concrete limiter,
rejecting branch. -/
theorem C3_allow_existing_witness :
    lookupBucket rlC3 (str "ip") = some ⟨0, 0⟩ ∧
    (minFloat rlC3.burst
        ((⟨0, 0⟩ : TokenBucket).tokens + rlC3.rate *
          ((1/120 : ℚ) - (⟨0, 0⟩ : TokenBucket).last) / rlC3.refill) < 1 →
      rlC3.allow (1/120) (str "ip") =
        (setBucket rlC3 (str "ip")
          ⟨minFloat rlC3.burst
            ((⟨0, 0⟩ : TokenBucket).tokens + rlC3.rate *
              ((1/120 : ℚ) - (⟨0, 0⟩ : TokenBucket).last) / rlC3.refill),
            (⟨0, 0⟩ : TokenBucket).last⟩, false)) :=
  ⟨rfl, (C3_allow_existing rlC3 (1/120) (str "ip") ⟨0, 0⟩ rfl).1⟩

/-! ## Claim C9: token counts stay within `[0, capacity]` -/

/-- Wall-clock monotonicity of a call sequence, starting no earlier
than `T`. -/
def timesOK (T : ℚ) : List (ℚ × Str) → Prop
  | [] => True
  | (t, _) :: rest => T ≤ t ∧ timesOK t rest

/-- Every bucket holds between 0 and `burst` tokens and was last refilled
no later than `T`. -/
def bucketsOK (rl : RateLimiter) (T : ℚ) : Prop :=
  ∀ k b, lookupBucket rl k = some b →
    0 ≤ b.tokens ∧ b.tokens ≤ rl.burst ∧ b.last ≤ T

theorem allow_rate (rl : RateLimiter) (now : ℚ) (key : Str) :
    (rl.allow now key).1.rate = rl.rate := by
  unfold RateLimiter.allow
  cases lookupBucket rl key with
  | none => rfl
  | some b =>
    dsimp only
    split <;> rfl

theorem allow_burst (rl : RateLimiter) (now : ℚ) (key : Str) :
    (rl.allow now key).1.burst = rl.burst := by
  unfold RateLimiter.allow
  cases lookupBucket rl key with
  | none => rfl
  | some b =>
    dsimp only
    split <;> rfl

theorem allow_refill (rl : RateLimiter) (now : ℚ) (key : Str) :
    (rl.allow now key).1.refill = rl.refill := by
  unfold RateLimiter.allow
  cases lookupBucket rl key with
  | none => rfl
  | some b =>
    dsimp only
    split <;> rfl

theorem allow_bucketsOK {rl : RateLimiter} {T now : ℚ} {key : Str}
    (hrate : 0 ≤ rl.rate) (hburst : 1 ≤ rl.burst) (hrefill : 0 < rl.refill)
    (hok : bucketsOK rl T) (hT : T ≤ now) :
    bucketsOK (rl.allow now key).1 now := by
  intro k b hb
  rw [allow_burst]
  unfold RateLimiter.allow at hb
  cases hlook : lookupBucket rl key with
  | none =>
    rw [hlook] at hb
    dsimp only at hb
    rw [lookupBucket_setBucket] at hb
    by_cases hk : key = k
    · rw [if_pos hk] at hb
      have hbv : b = ⟨rl.burst - 1, now⟩ := (Option.some.inj hb).symm
      subst hbv
      refine ⟨by simpa using by linarith, by simpa using by linarith, le_refl _⟩
    · rw [if_neg hk] at hb
      have h := hok k b hb
      exact ⟨h.1, h.2.1, le_trans h.2.2 hT⟩
  | some b0 =>
    rw [hlook] at hb
    dsimp only at hb
    have h0 := hok key b0 hlook
    have hnum : 0 ≤ b0.tokens + rl.rate * (now - b0.last) / rl.refill := by
      have helapsed : 0 ≤ now - b0.last := by linarith [h0.2.2]
      have : 0 ≤ rl.rate * (now - b0.last) / rl.refill :=
        div_nonneg (mul_nonneg hrate helapsed) (le_of_lt hrefill)
      linarith [h0.1]
    have hrlo : 0 ≤ minFloat rl.burst
        (b0.tokens + rl.rate * (now - b0.last) / rl.refill) := by
      unfold minFloat
      split
      · linarith
      · exact hnum
    have hrhi : minFloat rl.burst
        (b0.tokens + rl.rate * (now - b0.last) / rl.refill) ≤ rl.burst := by
      unfold minFloat
      split
      · exact le_refl _
      · linarith [not_lt.mp (by assumption :
          ¬ rl.burst < b0.tokens + rl.rate * (now - b0.last) / rl.refill)]
    by_cases hc : minFloat rl.burst
        (b0.tokens + rl.rate * (now - b0.last) / rl.refill) < 1
    · rw [if_pos hc] at hb
      dsimp only at hb
      rw [lookupBucket_setBucket] at hb
      by_cases hk : key = k
      · rw [if_pos hk] at hb
        have hbv := (Option.some.inj hb).symm
        subst hbv
        exact ⟨hrlo, hrhi, le_trans h0.2.2 hT⟩
      · rw [if_neg hk] at hb
        have h := hok k b hb
        exact ⟨h.1, h.2.1, le_trans h.2.2 hT⟩
    · rw [if_neg hc] at hb
      dsimp only at hb
      rw [lookupBucket_setBucket] at hb
      by_cases hk : key = k
      · rw [if_pos hk] at hb
        have hbv := (Option.some.inj hb).symm
        subst hbv
        have h1 : (1 : ℚ) ≤ minFloat rl.burst
            (b0.tokens + rl.rate * (now - b0.last) / rl.refill) := not_lt.mp hc
        exact ⟨by simpa using by linarith, by simpa using by linarith, le_refl _⟩
      · rw [if_neg hk] at hb
        have h := hok k b hb
        exact ⟨h.1, h.2.1, le_trans h.2.2 hT⟩

/-- The time at which the last call of the sequence runs. -/
def finalTime (T : ℚ) : List (ℚ × Str) → ℚ
  | [] => T
  | (t, _) :: rest => finalTime t rest

theorem runAllow_burst (rl : RateLimiter) (calls : List (ℚ × Str)) :
    (runAllow rl calls).burst = rl.burst := by
  induction calls generalizing rl with
  | nil => rfl
  | cons c rest ih => rw [runAllow, ih, allow_burst]

theorem runAllow_bucketsOK {rl : RateLimiter} {T : ℚ} {calls : List (ℚ × Str)}
    (hrate : 0 ≤ rl.rate) (hburst : 1 ≤ rl.burst) (hrefill : 0 < rl.refill)
    (hok : bucketsOK rl T) (ht : timesOK T calls) :
    bucketsOK (runAllow rl calls) (finalTime T calls) := by
  induction calls generalizing rl T with
  | nil => exact hok
  | cons c rest ih =>
    rcases c with ⟨t, k⟩
    rcases ht with ⟨hTt, hrest⟩
    exact ih (by rw [allow_rate]; exact hrate) (by rw [allow_burst]; exact hburst)
      (by rw [allow_refill]; exact hrefill)
      (allow_bucketsOK hrate hburst hrefill hok hTt) hrest

theorem timesOK_append_left {T : ℚ} {p s : List (ℚ × Str)}
    (h : timesOK T (p ++ s)) : timesOK T p := by
  induction p generalizing T with
  | nil => trivial
  | cons c rest ih =>
    rcases c with ⟨t, k⟩
    exact ⟨h.1, ih h.2⟩

/-- C9: for every monotone sequence of `allow` calls on a fresh limiter
with nonnegative rate, burst capacity at least 1 and positive refill
period, after every prefix every bucket's token count lies in
`[0, burst]`. -/
theorem C9_token_bounds (rate burst refill T0 : ℚ)
    (calls p s : List (ℚ × Str))
    (hrate : 0 ≤ rate) (hburst : 1 ≤ burst) (hrefill : 0 < refill)
    (hsplit : calls = p ++ s) (ht : timesOK T0 calls) :
    ∀ k b, lookupBucket (runAllow (newRateLimiter rate burst refill) p) k =
        some b → 0 ≤ b.tokens ∧ b.tokens ≤ burst := by
  subst hsplit
  have htp : timesOK T0 p := timesOK_append_left ht
  have h := @runAllow_bucketsOK (newRateLimiter rate burst refill) T0 p
    hrate hburst hrefill (fun k b hb => by cases hb) htp
  intro k b hb
  have hres := h k b hb
  rw [runAllow_burst] at hres
  exact ⟨hres.1, hres.2.1⟩

/-- C9 witness: two calls at instants 0 and 1 on a limiter with rate 60,
burst 30, refill 1 s; the surviving bucket holds 29 tokens. -/
theorem C9_token_bounds_witness :
    ((0 : ℚ) ≤ 60 ∧ (1 : ℚ) ≤ 30 ∧ (0 : ℚ) < 1 ∧
      timesOK 0 [((0 : ℚ), str "ip"), ((1 : ℚ), str "ip")]) ∧
    (0 ≤ (⟨29, 1⟩ : TokenBucket).tokens ∧
      (⟨29, 1⟩ : TokenBucket).tokens ≤ 30) := by
  refine ⟨⟨by norm_num, by norm_num, by norm_num, ⟨by norm_num, by norm_num, trivial⟩⟩, ?_⟩
  refine C9_token_bounds 60 30 1 0 [((0 : ℚ), str "ip"), ((1 : ℚ), str "ip")]
    [((0 : ℚ), str "ip"), ((1 : ℚ), str "ip")] [] (by norm_num) (by norm_num)
    (by norm_num) (by simp) ⟨by norm_num, by norm_num, trivial⟩ (str "ip") ⟨29, 1⟩ ?_
  show lookupBucket (runAllow (newRateLimiter 60 30 1)
      [((0 : ℚ), str "ip"), ((1 : ℚ), str "ip")]) (str "ip") = some ⟨29, 1⟩
  simp only [runAllow, RateLimiter.allow, lookupBucket, setBucket,
    newRateLimiter, minFloat, List.find?, List.filter]
  norm_num

/-! ## Claims C8 and C10: the admission chain -/

/-- The state after the rate-limiter stage admits the request. -/
def stAfterRate (st : PipeState) (req : Request) (now : ℚ) : PipeState :=
  { st with rl := (st.rl.allow now req.ip).1 }

/-- The state after the idempotency stage lets the request through. -/
def stAfterIdem (st : PipeState) (req : Request) (now : ℚ) : PipeState :=
  if req.idemKey = [] then stAfterRate st req now
  else { stAfterRate st req now with idem := (st.idem.seen now req.idemKey).2 }

theorem rateLimitMW_eq (next : PHandler) (req : Request) (now : ℚ)
    (st : PipeState) :
    rateLimitMW next req now st =
      if (st.rl.allow now req.ip).2 = true
      then next req now (stAfterRate st req now)
      else (429, stAfterRate st req now) := rfl

theorem idempotencyMW_empty (next : PHandler) (req : Request) (now : ℚ)
    (st : PipeState) (h : req.idemKey = []) :
    idempotencyMW next req now st = next req now st := by
  unfold idempotencyMW
  rw [if_pos (by simpa using h)]

theorem idempotencyMW_dup (next : PHandler) (req : Request) (now : ℚ)
    (st : PipeState) (hk : req.idemKey ≠ [])
    (hs : (st.idem.seen now req.idemKey).1 = true) :
    idempotencyMW next req now st =
      (409, { st with idem := (st.idem.seen now req.idemKey).2 }) := by
  unfold idempotencyMW
  rw [if_neg (by simpa using hk), if_pos hs]

theorem idempotencyMW_fresh (next : PHandler) (req : Request) (now : ℚ)
    (st : PipeState) (hk : req.idemKey ≠ [])
    (hs : (st.idem.seen now req.idemKey).1 = false) :
    idempotencyMW next req now st =
      next req now { st with idem := (st.idem.seen now req.idemKey).2 } := by
  unfold idempotencyMW
  rw [if_neg (by simpa using hk)]
  simp only [hs, Bool.false_eq_true, if_false]

theorem hmacMW_off (next : PHandler) (h : secret = []) :
    hmacMW secret next = next := by
  unfold hmacMW
  rw [if_pos (by simpa using h)]

theorem hmacMW_reject (next : PHandler) (req : Request) (now : ℚ)
    (st : PipeState) (hsec : secret ≠ [])
    (hsig : req.signature = [] ∨
      req.signature ≠ hexBytes (hmacSha256 secret req.body)) :
    hmacMW secret next req now st = (401, st) := by
  unfold hmacMW
  rw [if_neg (by simpa using hsec)]
  by_cases h0 : req.signature = []
  · rw [if_pos (by simpa using h0)]
  · rcases hsig with hsig | hsig
    · exact absurd hsig h0
    · rw [if_neg (by simpa using h0), if_neg (by simpa using hsig)]

theorem hmacMW_pass (next : PHandler) (req : Request) (now : ℚ)
    (st : PipeState) (hsec : secret ≠ []) (h0 : req.signature ≠ [])
    (hsig : req.signature = hexBytes (hmacSha256 secret req.body)) :
    hmacMW secret next req now st = next req now st := by
  unfold hmacMW
  rw [if_neg (by simpa using hsec)]
  rw [if_neg (by simpa using h0), if_pos (by simpa using hsig)]

/-- C8: on the `/webhook` chain the stages run in the order rate limiter,
idempotency filter, signature validator, handler: a rate-limited request
yields 429 with the idempotency store untouched and no handler effect,
for every inner handler; a duplicate key yields 409 before the signature
stage, for every handler and secret; with a non-empty secret, a missing
or wrong signature yields 401 after the rate and idempotency stages but
before the handler; and when all three stages pass, the handler runs. -/
theorem C8_admission_order (secret : List Nat) (req : Request) (now : ℚ)
    (st : PipeState) :
    (∀ h : PHandler, (st.rl.allow now req.ip).2 = false →
      wrap h [rateLimitMW, idempotencyMW, hmacMW secret] req now st =
        (429, stAfterRate st req now)) ∧
    (∀ h : PHandler, (st.rl.allow now req.ip).2 = true → req.idemKey ≠ [] →
      (st.idem.seen now req.idemKey).1 = true →
      wrap h [rateLimitMW, idempotencyMW, hmacMW secret] req now st =
        (409, { stAfterRate st req now with
                  idem := (st.idem.seen now req.idemKey).2 })) ∧
    (∀ h : PHandler, (st.rl.allow now req.ip).2 = true →
      (req.idemKey = [] ∨ (st.idem.seen now req.idemKey).1 = false) →
      secret ≠ [] →
      (req.signature = [] ∨
        req.signature ≠ hexBytes (hmacSha256 secret req.body)) →
      wrap h [rateLimitMW, idempotencyMW, hmacMW secret] req now st =
        (401, stAfterIdem st req now)) ∧
    ((st.rl.allow now req.ip).2 = true →
      (req.idemKey = [] ∨ (st.idem.seen now req.idemKey).1 = false) →
      (secret = [] ∨ (req.signature ≠ [] ∧
        req.signature = hexBytes (hmacSha256 secret req.body))) →
      wrap webhookStub [rateLimitMW, idempotencyMW, hmacMW secret] req now st =
        (200, { stAfterIdem st req now with
                  handled := st.handled ++ [req.body] })) := by
  refine ⟨?_, ?_, ?_, ?_⟩
  · intro h hr
    show rateLimitMW (idempotencyMW (hmacMW secret h)) req now st = _
    rw [rateLimitMW_eq, hr]
    rfl
  · intro h hr hk hs
    show rateLimitMW (idempotencyMW (hmacMW secret h)) req now st = _
    rw [rateLimitMW_eq, hr, if_pos rfl,
      idempotencyMW_dup (hmacMW secret h) req now (stAfterRate st req now) hk hs]
    rfl
  · intro h hr hk hsec hsig
    show rateLimitMW (idempotencyMW (hmacMW secret h)) req now st = _
    rw [rateLimitMW_eq, hr, if_pos rfl]
    by_cases hke : req.idemKey = []
    · rw [idempotencyMW_empty _ _ _ _ hke,
        hmacMW_reject _ _ _ _ hsec hsig]
      unfold stAfterIdem
      rw [if_pos hke]
    · rcases hk with hk | hk
      · exact absurd hk hke
      · rw [idempotencyMW_fresh (hmacMW secret h) req now
          (stAfterRate st req now) hke hk,
          hmacMW_reject _ _ _ _ hsec hsig]
        unfold stAfterIdem
        rw [if_neg hke]
        rfl
  · intro hr hk hok
    show rateLimitMW (idempotencyMW (hmacMW secret webhookStub)) req now st = _
    rw [rateLimitMW_eq, hr, if_pos rfl]
    have hstep : ∀ s2 : PipeState,
        hmacMW secret webhookStub req now s2 =
          (200, { s2 with handled := s2.handled ++ [req.body] }) := by
      intro s2
      rcases hok with hok | hok
      · rw [hmacMW_off _ hok]
        rfl
      · by_cases hsec : secret = []
        · rw [hmacMW_off _ hsec]
          rfl
        · rw [hmacMW_pass _ _ _ _ hsec hok.1 hok.2]
          rfl
    by_cases hke : req.idemKey = []
    · rw [idempotencyMW_empty _ _ _ _ hke, hstep]
      unfold stAfterIdem
      rw [if_pos hke]
      rfl
    · rcases hk with hk | hk
      · exact absurd hk hke
      · rw [idempotencyMW_fresh (hmacMW secret webhookStub) req now
          (stAfterRate st req now) hke hk, hstep]
        unfold stAfterIdem
        rw [if_neg hke]
        rfl

/-- Concrete state for the C8 witness: the `ip` bucket is empty, so the
rate limiter rejects at instant 0. -/
def stC8 : PipeState :=
  { rl := { buckets := [(str "ip", ⟨0, 0⟩)], rate := 60, burst := 30,
            refill := 1 },
    idem := newIdemStore 600, handled := [] }

def reqC8 : Request :=
  { ip := str "ip", idemKey := str "k", signature := [], body := [] }

theorem C8_admission_order_witness :
    (stC8.rl.allow 0 reqC8.ip).2 = false ∧
    wrap webhookStub [rateLimitMW, idempotencyMW, hmacMW [1]] reqC8 0 stC8 =
      (429, stAfterRate stC8 reqC8 0) := by
  have hfalse : (stC8.rl.allow 0 reqC8.ip).2 = false := by
    simp only [stC8, reqC8, RateLimiter.allow, lookupBucket, setBucket,
      minFloat, List.find?, List.filter]
    norm_num
  exact ⟨hfalse, (C8_admission_order [1] reqC8 0 stC8).1 webhookStub hfalse⟩

theorem lookupItem_setItem (s : IdemStore) (K k : Str) (e : ℚ) :
    lookupItem (setItem s K e) k = if K = k then some e else lookupItem s k :=
  find?_upsert s.items K k e

theorem seen_snd_of_false {s : IdemStore} {now : ℚ} {key : Str}
    (hk : key ≠ []) (h : (s.seen now key).1 = false) :
    (s.seen now key).2 = setItem s key (now + s.ttl) := by
  unfold IdemStore.seen at h ⊢
  rw [if_neg (by simpa using hk)] at h ⊢
  cases hl : lookupItem s key with
  | none => rfl
  | some e =>
    rw [hl] at h
    dsimp only at h
    by_cases hlt : now < e
    · rw [if_pos hlt] at h
      exact absurd h (by simp)
    · dsimp only
      rw [if_neg hlt]

theorem seen_true_of_lookup_lt {s : IdemStore} {now : ℚ} {key : Str} {e : ℚ}
    (hk : key ≠ []) (hl : lookupItem s key = some e) (hlt : now < e) :
    s.seen now key = (true, s) := by
  unfold IdemStore.seen
  rw [if_neg (by simpa using hk), hl]
  dsimp only
  rw [if_pos hlt]

/-- C10 (implicit): a request with a non-empty fresh `Idempotency-Key`
that passes the rate limiter but fails signature validation is rejected
with 401 while the key has already been recorded (expiring at
`now + ttl`) and the handler has not run; an immediately following
request with the same key, admitted by the rate limiter before that
expiry, is rejected with 409. -/
theorem C10_key_consumed_on_401 (secret : List Nat) (req : Request)
    (now : ℚ) (st : PipeState)
    (hsec : secret ≠ []) (hkey : req.idemKey ≠ [])
    (hallow : (st.rl.allow now req.ip).2 = true)
    (hfresh : (st.idem.seen now req.idemKey).1 = false)
    (hsig : req.signature = [] ∨
      req.signature ≠ hexBytes (hmacSha256 secret req.body)) :
    (webhookPipeline secret req now st).1 = 401 ∧
    lookupItem (webhookPipeline secret req now st).2.idem req.idemKey =
      some (now + st.idem.ttl) ∧
    (webhookPipeline secret req now st).2.handled = st.handled ∧
    (∀ (req2 : Request) (now2 : ℚ), req2.idemKey = req.idemKey →
      ((webhookPipeline secret req now st).2.rl.allow now2 req2.ip).2 = true →
      now2 < now + st.idem.ttl →
      (webhookPipeline secret req2 now2
        (webhookPipeline secret req now st).2).1 = 409) := by
  have hout : webhookPipeline secret req now st =
      (401, stAfterIdem st req now) := by
    show rateLimitMW (idempotencyMW (hmacMW secret webhookStub)) req now st = _
    rw [rateLimitMW_eq, hallow, if_pos rfl,
      idempotencyMW_fresh (hmacMW secret webhookStub) req now
        (stAfterRate st req now) hkey hfresh,
      hmacMW_reject _ _ _ _ hsec hsig]
    unfold stAfterIdem
    rw [if_neg hkey]
    rfl
  have hidem : (stAfterIdem st req now).idem =
      setItem st.idem req.idemKey (now + st.idem.ttl) := by
    unfold stAfterIdem
    rw [if_neg hkey]
    exact seen_snd_of_false hkey hfresh
  refine ⟨by rw [hout], ?_, ?_, ?_⟩
  · rw [hout]
    show lookupItem (stAfterIdem st req now).idem req.idemKey = _
    rw [hidem, lookupItem_setItem, if_pos rfl]
  · rw [hout]
    show (stAfterIdem st req now).handled = st.handled
    unfold stAfterIdem
    by_cases hke : req.idemKey = []
    · rw [if_pos hke]
      rfl
    · rw [if_neg hke]
      rfl
  · intro req2 now2 hk2 hallow2 hlt2
    rw [hout] at hallow2 ⊢
    dsimp only at hallow2
    have hk2ne : req2.idemKey ≠ [] := by rw [hk2]; exact hkey
    have hlook2 : lookupItem (stAfterIdem st req now).idem req2.idemKey =
        some (now + st.idem.ttl) := by
      rw [hidem, lookupItem_setItem, hk2, if_pos rfl]
    have hseen2 :
        (((stAfterRate (stAfterIdem st req now) req2 now2).idem).seen now2
          req2.idemKey).1 = true := by
      rw [show (stAfterRate (stAfterIdem st req now) req2 now2).idem =
        (stAfterIdem st req now).idem from rfl]
      rw [seen_true_of_lookup_lt hk2ne hlook2 hlt2]
    show (rateLimitMW (idempotencyMW (hmacMW secret webhookStub)) req2 now2
      (stAfterIdem st req now)).1 = 409
    rw [rateLimitMW_eq, hallow2, if_pos rfl,
      idempotencyMW_dup (hmacMW secret webhookStub) req2 now2
        (stAfterRate (stAfterIdem st req now) req2 now2) hk2ne hseen2]

/-- Concrete state for the C10 witness: fresh limiter and idempotency
store, missing signature, non-empty key. -/
def stC10 : PipeState :=
  { rl := newRateLimiter 60 30 1, idem := newIdemStore 600, handled := [] }

def reqC10 : Request :=
  { ip := str "ip", idemKey := str "k", signature := [], body := [] }

theorem C10_key_consumed_on_401_witness :
    (([1] : List Nat) ≠ [] ∧ reqC10.idemKey ≠ [] ∧
      (stC10.rl.allow 0 reqC10.ip).2 = true ∧
      (stC10.idem.seen 0 reqC10.idemKey).1 = false) ∧
    (webhookPipeline [1] reqC10 0 stC10).1 = 401 ∧
    (webhookPipeline [1] reqC10 1
      (webhookPipeline [1] reqC10 0 stC10).2).1 = 409 := by
  have h1 : (stC10.rl.allow 0 reqC10.ip).2 = true := rfl
  have h2 : (stC10.idem.seen 0 reqC10.idemKey).1 = false := rfl
  have hmain := C10_key_consumed_on_401 [1] reqC10 0 stC10 (by decide)
    (by decide) h1 h2 (Or.inl rfl)
  have hout : webhookPipeline [1] reqC10 0 stC10 =
      (401, stAfterIdem stC10 reqC10 0) := by
    show rateLimitMW (idempotencyMW (hmacMW [1] webhookStub)) reqC10 0 stC10 = _
    rw [rateLimitMW_eq, h1, if_pos rfl,
      idempotencyMW_fresh (hmacMW [1] webhookStub) reqC10 0
        (stAfterRate stC10 reqC10 0) (by decide) rfl,
      hmacMW_reject _ _ _ _ (by decide) (Or.inl rfl)]
    unfold stAfterIdem
    rw [if_neg (by decide)]
    rfl
  have hallow2 : ((webhookPipeline [1] reqC10 0 stC10).2.rl.allow 1
      reqC10.ip).2 = true := by
    rw [hout]
    show ((stAfterIdem stC10 reqC10 0).rl.allow 1 (str "ip")).2 = true
    have hl : lookupBucket (stAfterIdem stC10 reqC10 0).rl (str "ip") =
        some ⟨(30 : ℚ) - 1, 0⟩ := rfl
    unfold RateLimiter.allow
    rw [hl]
    dsimp only
    rw [show (stAfterIdem stC10 reqC10 0).rl.burst = (30 : ℚ) from rfl,
      show (stAfterIdem stC10 reqC10 0).rl.rate = (60 : ℚ) from rfl,
      show (stAfterIdem stC10 reqC10 0).rl.refill = (1 : ℚ) from rfl]
    rw [if_neg (show ¬ minFloat (30 : ℚ)
      (((30 : ℚ) - 1) + 60 * ((1 : ℚ) - 0) / 1) < 1 by
        unfold minFloat
        norm_num)]
  have hlt : (1 : ℚ) < 0 + stC10.idem.ttl := by
    show (1 : ℚ) < 0 + 600
    norm_num
  exact ⟨⟨by decide, by decide, h1, h2⟩, hmain.1,
    hmain.2.2.2 reqC10 1 rfl hallow2 hlt⟩

/-! ## Claim C2: `GetAlerts` order and contents -/

/-- The strict order Redis keeps between two distinct sorted-set entries:
by score, then byte-wise by member. -/
def pairLt (p q : Nat × Str) : Prop :=
  p.1 < q.1 ∨ (p.1 = q.1 ∧ strLt p.2 q.2 = true)

instance pairLt.instDecidable : DecidableRel pairLt := fun p q =>
  inferInstanceAs (Decidable (p.1 < q.1 ∨ (p.1 = q.1 ∧ strLt p.2 q.2 = true)))

/-- A timeline entry is coherent: if its member's record exists, the
member is that record's key and the score is its creation time in whole
seconds. -/
def memberOKb (r : Redis) (p : Nat × Str) : Bool :=
  match r.find p.2 with
  | some (.rstr a _) => p.2 == alertKey a.id && p.1 == a.createdAt / nsPerSec
  | some _ => false
  | none => true

/-- A keyspace entry is coherent: an alert record sits at its own key and,
while live, is referenced by the timeline. -/
def entryOKb (r : Redis) (now : Nat) (p : Str × RVal) : Bool :=
  match p.2 with
  | .rstr a e => p.1 == alertKey a.id &&
      (!(RVal.liveAt (.rstr a e) now) || (tlList r).any (fun q => q.2 == p.1))
  | _ => true

/-- Store well-formedness, as `AddAlert` maintains it: unique keys, a
strictly sorted timeline, and coherent members and entries. -/
def wfStore (r : Redis) (now : Nat) : Prop :=
  (r.kv.map (fun p => p.1)).Nodup ∧
  List.Pairwise pairLt (tlList r) ∧
  (∀ p ∈ tlList r, memberOKb r p = true) ∧
  (∀ p ∈ r.kv, entryOKb r now p = true)

/-- The live alert records present in the keyspace. -/
def storeAlerts (r : Redis) (now : Nat) : List Alert :=
  r.kv.filterMap (fun p =>
    match p.2 with
    | .rstr a e => if RVal.liveAt (.rstr a e) now then some a else none
    | _ => none)

/-- The order `GetAlerts` actually emits: second-truncated creation time
descending, ties by descending byte order of the record key. -/
def newestFirst (a b : Alert) : Prop :=
  b.createdAt / nsPerSec < a.createdAt / nsPerSec ∨
  (b.createdAt / nsPerSec = a.createdAt / nsPerSec ∧
    strLt (alertKey b.id) (alertKey a.id) = true)

theorem pairwise_strengthen {α : Type} {R : α → α → Prop} {P : α → Prop}
    {l : List α} (hp : List.Pairwise R l) (hP : ∀ x ∈ l, P x) :
    List.Pairwise (fun a b => R a b ∧ P a ∧ P b) l := by
  induction l with
  | nil => exact List.Pairwise.nil
  | cons x rest ih =>
    rcases List.pairwise_cons.mp hp with ⟨hx, hrest⟩
    refine List.pairwise_cons.mpr ⟨?_, ih hrest (fun y hy => hP y (List.mem_cons_of_mem _ hy))⟩
    intro y hy
    exact ⟨hx y hy, hP x (List.mem_cons_self _ _), hP y (List.mem_cons_of_mem _ hy)⟩

theorem find_entry_mem {r : Redis} {k : Str} {v : RVal}
    (h : r.find k = some v) : (k, v) ∈ r.kv := by
  unfold Redis.find at h
  cases hf : r.kv.find? (fun p => p.1 == k) with
  | none => rw [hf] at h; exact absurd h (by simp)
  | some p =>
    rw [hf] at h
    have hp := List.find?_some hf
    have hmem := List.mem_of_find?_eq_some hf
    have hk : p.1 = k := by simpa using hp
    have hv : p.2 = v := by simpa using h
    have : p = (k, v) := Prod.ext hk hv
    rw [← this]
    exact hmem

theorem find_of_mem_nodup {r : Redis} {k : Str} {v : RVal}
    (hmem : (k, v) ∈ r.kv) (hnd : (r.kv.map (fun p => p.1)).Nodup) :
    r.find k = some v := by
  unfold Redis.find
  rw [find?_of_mem_nodup hmem hnd]
  rfl

theorem recOf_some {r : Redis} {now : Nat} {k : Str} {a : Alert}
    (h : recOf r now k = some a) :
    ∃ e, r.find k = some (.rstr a e) ∧ RVal.liveAt (.rstr a e) now = true := by
  unfold recOf at h
  cases hg : r.get now k with
  | none => rw [hg] at h; exact absurd h (by simp)
  | some v =>
    rw [hg] at h
    cases v with
    | rstr a2 e =>
      have he : a2 = a := by simpa using h
      subst he
      have hf := get_some_find hg
      exact ⟨e, hf.1, hf.2⟩
    | rint n => exact absurd h (by simp)
    | rzset l => exact absurd h (by simp)
    | rset mem e => exact absurd h (by simp)

theorem recOf_of_find {r : Redis} {now : Nat} {k : Str} {a : Alert}
    {e : Option Nat} (hf : r.find k = some (.rstr a e))
    (hl : RVal.liveAt (.rstr a e) now = true) : recOf r now k = some a := by
  unfold recOf Redis.get
  rw [hf]
  dsimp only
  rw [if_pos hl]

theorem memberOK_spec {r : Redis} {p : Nat × Str} {a : Alert}
    {e : Option Nat} (hOK : memberOKb r p = true)
    (hf : r.find p.2 = some (.rstr a e)) :
    p.2 = alertKey a.id ∧ p.1 = a.createdAt / nsPerSec := by
  unfold memberOKb at hOK
  rw [hf] at hOK
  dsimp only at hOK
  rw [Bool.and_eq_true] at hOK
  exact ⟨beq_iff_eq.mp hOK.1, beq_iff_eq.mp hOK.2⟩

/-- C2 (amended): under store coherence, `GetAlerts` returns exactly the
live (non-expired) alert records, ordered by whole-second creation time
descending with score ties broken by descending byte order of the record
key `alert:{id}` — not by descending id. -/
theorem C2_list_contract (r : Redis) (now : Nat) (h : wfStore r now) :
    List.Pairwise newestFirst (getAlerts r now).2 ∧
    (∀ a : Alert, a ∈ (getAlerts r now).2 ↔ a ∈ storeAlerts r now) := by
  obtain ⟨hnd, hpair, hmemOK, hentOK⟩ := h
  have hsnd : (getAlerts r now).2 =
      ((tlList r).reverse.map (fun p => p.2)).filterMap (recOf r now) := by
    rw [getAlerts_snd, zrevrangeAll_timeline, List.map_reverse]
  constructor
  · rw [hsnd, List.filterMap_map, List.pairwise_filterMap]
    have h1 : List.Pairwise (fun p q => pairLt q p) (tlList r).reverse :=
      List.pairwise_reverse.mpr hpair
    have h2 : ∀ p ∈ (tlList r).reverse, memberOKb r p = true := by
      intro p hp
      exact hmemOK p (List.mem_reverse.mp hp)
    refine (pairwise_strengthen h1 h2).imp ?_
    rintro p q ⟨hlt, hOKp, hOKq⟩
    intro a ha b hb
    obtain ⟨e1, hf1, hl1⟩ := recOf_some (Option.mem_def.mp ha)
    obtain ⟨e2, hf2, hl2⟩ := recOf_some (Option.mem_def.mp hb)
    obtain ⟨hkey1, hsc1⟩ := memberOK_spec hOKp hf1
    obtain ⟨hkey2, hsc2⟩ := memberOK_spec hOKq hf2
    unfold newestFirst
    unfold pairLt at hlt
    rcases hlt with hlt | ⟨heq, hstr⟩
    · left
      rw [← hsc1, ← hsc2]
      exact hlt
    · right
      constructor
      · rw [← hsc1, ← hsc2]
        exact heq
      · rw [← hkey1, ← hkey2]
        exact hstr
  · intro a
    rw [hsnd, List.filterMap_map]
    constructor
    · intro ha
      obtain ⟨p, hp, hfa⟩ := List.mem_filterMap.mp ha
      obtain ⟨e, hf, hlive⟩ := recOf_some hfa
      have hmem := find_entry_mem hf
      refine List.mem_filterMap.mpr ⟨(p.2, .rstr a e), hmem, ?_⟩
      dsimp only
      rw [if_pos hlive]
    · intro ha
      obtain ⟨q, hq, hfa⟩ := List.mem_filterMap.mp ha
      rcases q with ⟨k, v⟩
      cases v with
      | rstr a2 e =>
        dsimp only at hfa
        by_cases hl : RVal.liveAt (.rstr a2 e) now = true
        · rw [if_pos hl] at hfa
          have he : a2 = a := by simpa using hfa
          have hent := hentOK _ hq
          unfold entryOKb at hent
          dsimp only at hent
          rw [Bool.and_eq_true] at hent
          have hterm : (tlList r).any (fun q2 => q2.2 == k) = true := by
            rcases (Bool.or_eq_true _ _).mp hent.2 with hdead | hgood
            · rw [hl] at hdead
              exact absurd hdead (by simp)
            · exact hgood
          obtain ⟨p2, hp2, hpk⟩ := List.any_eq_true.mp hterm
          have hpk2 : p2.2 = k := by simpa using hpk
          refine List.mem_filterMap.mpr ⟨p2, List.mem_reverse.mpr hp2, ?_⟩
          show recOf r now p2.2 = some a
          rw [hpk2, ← he]
          exact recOf_of_find (find_of_mem_nodup hq hnd) hl
        · rw [if_neg hl] at hfa
          exact absurd hfa (by simp)
      | rint n => exact absurd hfa (by simp)
      | rzset l => exact absurd hfa (by simp)
      | rset mem e => exact absurd hfa (by simp)

instance wfStore.instDecidable (r : Redis) (now : Nat) :
    Decidable (wfStore r now) :=
  inferInstanceAs (Decidable ((r.kv.map (fun p : Str × RVal => p.1)).Nodup ∧
    List.Pairwise pairLt (tlList r) ∧
    (∀ p ∈ tlList r, memberOKb r p = true) ∧
    (∀ p ∈ r.kv, entryOKb r now p = true)))

/-- Two adds at distinct seconds; the resulting store is well-formed. -/
def rC2w : Redis :=
  (addAlert (addAlert Redis.empty 5000000000 (str "s1") (str "info")
    (str "t1") (str "m1")).1 7000000000 (str "s2") (str "warning")
    (str "t2") (str "m2")).1

set_option maxRecDepth 10000 in
theorem C2_list_contract_witness :
    wfStore rC2w 7000000000 ∧
    List.Pairwise newestFirst (getAlerts rC2w 7000000000).2 :=
  ⟨by decide, (C2_list_contract rC2w 7000000000 (by decide)).1⟩

/-- Ten adds in the same wall-clock second. -/
def rC2x : Redis :=
  (List.range 10).foldl
    (fun acc _ =>
      (addAlert acc 5000000000 (str "s") (str "info") (str "t") (str "m")).1)
    Redis.empty

set_option maxRecDepth 10000 in
/-- C2 counterexample: ten alerts with the identical creation timestamp
list as ids 9,8,…,2,10,1 — reverse byte order of `alert:{id}` — and not
as 10,9,…,1, so the later-assigned id 10 does not come first. -/
theorem C2_counterexample :
    ((getAlerts rC2x 5000000000).2.map (fun a => a.id) =
      [9, 8, 7, 6, 5, 4, 3, 2, 10, 1]) ∧
    (∀ a ∈ (getAlerts rC2x 5000000000).2, a.createdAt = 5000000000) ∧
    (getAlerts rC2x 5000000000).2.map (fun a => a.id) ≠
      [10, 9, 8, 7, 6, 5, 4, 3, 2, 1] := by
  exact ⟨by decide, by decide, by decide⟩

/-! ## Claim C6: `SearchAlerts` -/

theorem searchKeys_both (r : Redis) (now : Nat) {level source : Str}
    (hl : level ≠ []) (hs : source ≠ []) :
    searchKeys r now level source =
      r.sinter now [levelKey level, sourceKey source] := by
  unfold searchKeys
  rw [if_neg (by simpa using hl), if_neg (by simpa using hs)]
  rfl

theorem searchKeys_level_only (r : Redis) (now : Nat) {level : Str}
    (hl : level ≠ []) :
    searchKeys r now level [] = r.smembers now (levelKey level) := by
  unfold searchKeys
  rw [if_neg (by simpa using hl), if_pos (by simp)]
  rfl

theorem sinter_two (r : Redis) (now : Nat) (K1 K2 : Str) :
    r.sinter now [K1, K2] =
      (r.smembers now K1).filter
        (fun m => (r.smembers now K2).contains m) := by
  unfold Redis.sinter
  refine List.filter_congr ?_
  intro m _
  simp [List.all_cons]

/-- C6 (amended): under store coherence and with both filters non-empty,
an alert is returned iff its key is in both index sets, its record is
live, and the query keeps it; with only the level filter, membership in
the level set alone decides; with no filters the candidates are exactly
the timeline — the result equals `list()` filtered by the query; the
empty query keeps everything.  A non-empty query is matched
case-insensitively against the single string
`title ++ " " ++ message ++ " " ++ source`, so it can also match across
field boundaries. -/
theorem C6_search_contract (r : Redis) (now : Nat) (q level source : Str)
    (hwf : wfStore r now) (hl : level ≠ []) (hs : source ≠ []) :
    (∀ a : Alert, a ∈ searchAlerts r now q level source ↔
      (alertKey a.id ∈ r.smembers now (levelKey level) ∧
       alertKey a.id ∈ r.smembers now (sourceKey source) ∧
       recOf r now (alertKey a.id) = some a ∧
       queryKeeps (strLower q) a = true)) ∧
    (∀ a : Alert, a ∈ searchAlerts r now q level [] ↔
      (alertKey a.id ∈ r.smembers now (levelKey level) ∧
       recOf r now (alertKey a.id) = some a ∧
       queryKeeps (strLower q) a = true)) ∧
    (searchAlerts r now q [] [] =
      ((getAlerts r now).2).filter (queryKeeps (strLower q))) ∧
    (∀ a : Alert, queryKeeps (strLower []) a = true) := by
  obtain ⟨hnd, hpair, hmemOK, hentOK⟩ := hwf
  have hkeyOf : ∀ (k : Str) (a : Alert), recOf r now k = some a →
      k = alertKey a.id := by
    intro k a hrec
    obtain ⟨e, hf, hlive⟩ := recOf_some hrec
    have hmem := find_entry_mem hf
    have hent := hentOK _ hmem
    unfold entryOKb at hent
    dsimp only at hent
    rw [Bool.and_eq_true] at hent
    exact beq_iff_eq.mp hent.1
  refine ⟨?_, ?_, ?_, ?_⟩
  · intro a
    unfold searchAlerts
    rw [searchKeys_both r now hl hs, sinter_two, collectAlerts_eq]
    constructor
    · intro ha
      rcases List.mem_filter.mp ha with ⟨hfm, hkeep⟩
      obtain ⟨k, hk, hrec⟩ := List.mem_filterMap.mp hfm
      rcases List.mem_filter.mp hk with ⟨hm1, hm2⟩
      have hkey := hkeyOf k a hrec
      subst hkey
      exact ⟨hm1, List.elem_iff.mp hm2, hrec, hkeep⟩
    · rintro ⟨hm1, hm2, hrec, hkeep⟩
      refine List.mem_filter.mpr ⟨?_, hkeep⟩
      refine List.mem_filterMap.mpr ⟨alertKey a.id, ?_, hrec⟩
      exact List.mem_filter.mpr ⟨hm1, List.elem_eq_true_of_mem hm2⟩
  · intro a
    unfold searchAlerts
    rw [searchKeys_level_only r now hl, collectAlerts_eq]
    constructor
    · intro ha
      rcases List.mem_filter.mp ha with ⟨hfm, hkeep⟩
      obtain ⟨k, hk, hrec⟩ := List.mem_filterMap.mp hfm
      have hkey := hkeyOf k a hrec
      subst hkey
      exact ⟨hk, hrec, hkeep⟩
    · rintro ⟨hm1, hrec, hkeep⟩
      refine List.mem_filter.mpr ⟨?_, hkeep⟩
      exact List.mem_filterMap.mpr ⟨alertKey a.id, hm1, hrec⟩
  · unfold searchAlerts
    rw [show searchKeys r now [] [] = r.zrevrangeAll now keyTimeline from rfl,
      collectAlerts_eq, getAlerts_snd]
  · intro a
    rfl

/-- One alert with title `a`, message `b`. -/
def rC6 : Redis :=
  (addAlert Redis.empty 5000000000 (str "s") (str "warning")
    (str "a") (str "b")).1

set_option maxRecDepth 10000 in
/-- C6 counterexample: the query `a b` matches across the field boundary
of the concatenation `title ++ " " ++ message ++ " " ++ source`, so the
alert is returned although none of title, message or source contains the
query, contradicting the claim's "keeps only alerts whose title, message
or source contains it". -/
theorem C6_counterexample :
    (searchAlerts rC6 5000000000 (str "a b") [] []).map (fun a => a.title) =
      [str "a"] ∧
    (∀ a ∈ searchAlerts rC6 5000000000 (str "a b") [] [],
      hasSub (strLower a.title) (strLower (str "a b")) = false ∧
      hasSub (strLower a.message) (strLower (str "a b")) = false ∧
      hasSub (strLower a.source) (strLower (str "a b")) = false) := by
  exact ⟨by decide, by decide⟩

/-- One alert with level `warning` and source `x`. -/
def rC6w : Redis :=
  (addAlert Redis.empty 5000000000 (str "x") (str "warning")
    (str "t") (str "m")).1

set_option maxRecDepth 10000 in
theorem C6_search_contract_witness :
    (wfStore rC6w 5000000000 ∧ str "warning" ≠ ([] : Str) ∧
      str "y" ≠ ([] : Str)) ∧
    (∀ a : Alert,
      a ∈ searchAlerts rC6w 5000000000 [] (str "warning") (str "y") ↔
      (alertKey a.id ∈ rC6w.smembers 5000000000 (levelKey (str "warning")) ∧
       alertKey a.id ∈ rC6w.smembers 5000000000 (sourceKey (str "y")) ∧
       recOf rC6w 5000000000 (alertKey a.id) = some a ∧
       queryKeeps (strLower []) a = true)) :=
  ⟨⟨by decide, by decide, by decide⟩,
    (C6_search_contract rC6w 5000000000 [] (str "warning") (str "y")
      (by decide) (by decide) (by decide)).1⟩

/-! ## Claim C7: `PurgeAlertsByChat` (modelled from the spec) -/

/-- Whether the live record at `k` matches the chat tag (the deletion
criterion of the purge loop). -/
def matchRecB (r : Redis) (now : Nat) (tag : Str) (k : Str) : Bool :=
  match recOf r now k with
  | some a => hasSub a.source tag
  | none => false

theorem find_del_single (r : Redis) (k0 k : Str) :
    (r.del [k0]).find k = if k0 = k then none else r.find k := by
  rw [find_del]
  by_cases h : k0 = k
  · rw [if_pos (by simp [h]), if_pos h]
  · rw [if_neg (by simpa using fun hc => h hc.symm), if_neg h]

theorem find_zrem_not_zset (r : Redis) (now : Nat) (K0 m k : Str)
    (h : ∀ l, r.find k ≠ some (.rzset l)) :
    (r.zrem now K0 m).find k = r.find k := by
  unfold Redis.zrem
  cases hg : r.get now K0 with
  | none => rfl
  | some v =>
    cases v with
    | rzset l =>
      have hf := (get_some_find hg).1
      have hne : K0 ≠ k := fun hc => h l (hc ▸ hf)
      rw [find_setKey, if_neg hne]
    | rstr a e => rfl
    | rint n => rfl
    | rset mem e => rfl

theorem find_srem_not_set (r : Redis) (now : Nat) (K0 m k : Str)
    (h : ∀ mem e, r.find k ≠ some (.rset mem e)) :
    (r.srem now K0 m).find k = r.find k := by
  unfold Redis.srem
  cases hg : r.get now K0 with
  | none => rfl
  | some v =>
    cases v with
    | rset mem e =>
      have hf := (get_some_find hg).1
      have hne : K0 ≠ k := fun hc => h mem e (hc ▸ hf)
      rw [find_setKey, if_neg hne]
    | rstr a e => rfl
    | rint n => rfl
    | rzset l => rfl

theorem tlList_del_rstr (r : Redis) (now : Nat) (k : Str) {a : Alert}
    {e : Option Nat} (hg : r.get now k = some (.rstr a e)) :
    tlList (r.del [k]) = tlList r := by
  have hf := (get_some_find hg).1
  unfold tlList
  rw [find_del_single]
  by_cases h : k = keyTimeline
  · subst h
    rw [if_pos rfl, hf]
  · rw [if_neg h]

theorem tlList_zrem_timeline (r : Redis) (now : Nat) (m : Str) :
    tlList (r.zrem now keyTimeline m) =
      (tlList r).filter (fun p => !(p.2 == m)) := by
  unfold Redis.zrem
  cases hg : r.get now keyTimeline with
  | none =>
    have htl : tlList r = [] := by
      unfold tlList
      cases hf : r.find keyTimeline with
      | none => rfl
      | some v =>
        cases v with
        | rzset l =>
          exfalso
          unfold Redis.get at hg
          rw [hf] at hg
          dsimp only at hg
          rw [if_pos (show (RVal.rzset l).liveAt now = true from rfl)] at hg
          exact absurd hg (by simp)
        | rstr a e => rfl
        | rint n => rfl
        | rset mem e => rfl
    rw [htl]
    rfl
  | some v =>
    have hf := (get_some_find hg).1
    cases v with
    | rzset l =>
      unfold tlList
      rw [find_setKey, if_pos rfl, hf]
    | rstr a e =>
      unfold tlList
      rw [hf]
      rfl
    | rint n =>
      unfold tlList
      rw [hf]
      rfl
    | rset mem e =>
      unfold tlList
      rw [hf]
      rfl

theorem tlList_srem_index (r : Redis) (now : Nat) (K0 m : Str)
    (h : K0 ≠ keyTimeline) :
    tlList (r.srem now K0 m) = tlList r := by
  unfold tlList
  rw [find_srem_ne _ _ _ h]

theorem smembers_del_rstr (r : Redis) (now : Nat) (k K : Str) {a : Alert}
    {e : Option Nat} (hg : r.get now k = some (.rstr a e)) :
    (r.del [k]).smembers now K = r.smembers now K := by
  unfold Redis.smembers Redis.get
  rw [find_del_single]
  by_cases h : k = K
  · subst h
    rw [if_pos rfl, (get_some_find hg).1]
    dsimp only
    cases hl : RVal.liveAt (.rstr a e) now <;> rfl
  · rw [if_neg h]

theorem smembers_zrem_timeline (r : Redis) (now : Nat) (m K : Str) :
    (r.zrem now keyTimeline m).smembers now K = r.smembers now K := by
  unfold Redis.zrem
  cases hg : r.get now keyTimeline with
  | none => rfl
  | some v =>
    cases v with
    | rzset l =>
      unfold Redis.smembers
      rw [get_setKey]
      by_cases h : keyTimeline = K
      · subst h
        rw [if_pos rfl]
        have hf := (get_some_find hg).1
        unfold Redis.get
        rw [hf]
        rfl
      · rw [if_neg h]
    | rstr a e => rfl
    | rint n => rfl
    | rset mem e => rfl

theorem smembers_srem (r : Redis) (now : Nat) (K0 m K : Str) :
    (r.srem now K0 m).smembers now K =
      if K0 = K then (r.smembers now K).filter (fun x => !(x == m))
      else r.smembers now K := by
  unfold Redis.srem
  cases hg : r.get now K0 with
  | none =>
    by_cases h : K0 = K
    · subst h
      rw [if_pos rfl]
      unfold Redis.smembers
      rw [hg]
      rfl
    · rw [if_neg h]
  | some v =>
    cases v with
    | rset mem e =>
      unfold Redis.smembers
      rw [get_setKey]
      by_cases h : K0 = K
      · subst h
        rw [if_pos rfl, if_pos rfl, hg]
        have hlive := (get_some_find hg).2
        have hlive2 : RVal.liveAt (.rset (mem.filter (fun x => !(x == m))) e)
            now = true := by
          cases e with
          | none => rfl
          | some d => simpa using hlive
        rw [if_pos hlive2]
      · rw [if_neg h, if_neg h]
    | rstr a e =>
      by_cases h : K0 = K
      · subst h
        rw [if_pos rfl]
        unfold Redis.smembers
        rw [hg]
        rfl
      · rw [if_neg h]
    | rint n =>
      by_cases h : K0 = K
      · subst h
        rw [if_pos rfl]
        unfold Redis.smembers
        rw [hg]
        rfl
      · rw [if_neg h]
    | rzset l =>
      by_cases h : K0 = K
      · subst h
        rw [if_pos rfl]
        unfold Redis.smembers
        rw [hg]
        rfl
      · rw [if_neg h]

/-- The state change for one matching record inside the purge loop. -/
def purgeStep (r : Redis) (now : Nat) (k : Str) (a : Alert) : Redis :=
  (((r.del [k]).zrem now keyTimeline k).srem now
    (levelKey a.level) k).srem now (sourceKey a.source) k

theorem purgeChatGo_cons_match (now : Nat) (tag : Str) (r : Redis)
    (k : Str) (rest : List Str) {a : Alert} {e : Option Nat}
    (hg : r.get now k = some (.rstr a e)) (hm : hasSub a.source tag = true) :
    purgeChatGo now tag r (k :: rest) =
      purgeChatGo now tag (purgeStep r now k a) rest := by
  rw [purgeChatGo, hg]
  dsimp only
  rw [if_pos hm]
  rfl

theorem purgeChatGo_cons_nomatch (now : Nat) (tag : Str) (r : Redis)
    (k : Str) (rest : List Str) {a : Alert} {e : Option Nat}
    (hg : r.get now k = some (.rstr a e)) (hm : hasSub a.source tag = false) :
    purgeChatGo now tag r (k :: rest) = purgeChatGo now tag r rest := by
  rw [purgeChatGo, hg]
  dsimp only
  rw [hm]
  rfl

theorem purgeChatGo_cons_skip (now : Nat) (tag : Str) (r : Redis)
    (k : Str) (rest : List Str)
    (hg : recOf r now k = none) :
    purgeChatGo now tag r (k :: rest) = purgeChatGo now tag r rest := by
  rw [purgeChatGo]
  unfold recOf at hg
  cases hv : r.get now k with
  | none => rfl
  | some v =>
    rw [hv] at hg
    cases v with
    | rstr a e => exact absurd hg (by simp)
    | rint n => rfl
    | rzset l => rfl
    | rset mem e => rfl

theorem recOf_purgeStep (r : Redis) (now : Nat) (k : Str) {a : Alert}
    {e : Option Nat} (hg : r.get now k = some (.rstr a e)) (k' : Str) :
    recOf (purgeStep r now k a) now k' =
      if k = k' then none else recOf r now k' := by
  unfold purgeStep
  rw [recOf_srem, recOf_srem, recOf_zrem, recOf_del]
  by_cases h : k = k'
  · rw [if_pos (by simp [h]), if_pos h]
  · rw [if_neg (by simpa using fun hc => h hc.symm), if_neg h]

theorem tlList_purgeStep (r : Redis) (now : Nat) (k : Str) {a : Alert}
    {e : Option Nat} (hg : r.get now k = some (.rstr a e)) :
    tlList (purgeStep r now k a) =
      (tlList r).filter (fun p => !(p.2 == k)) := by
  unfold purgeStep
  rw [tlList_srem_index _ _ _ _ (sourceKey_ne_keyTimeline _),
    tlList_srem_index _ _ _ _ (levelKey_ne_keyTimeline _),
    tlList_zrem_timeline, tlList_del_rstr r now k hg]

theorem smembers_purgeStep_subset (r : Redis) (now : Nat) (k : Str)
    {a : Alert} {e : Option Nat} (hg : r.get now k = some (.rstr a e))
    (K : Str) :
    (purgeStep r now k a).smembers now K ⊆ r.smembers now K := by
  unfold purgeStep
  rw [smembers_srem, smembers_srem, smembers_zrem_timeline,
    smembers_del_rstr r now k K hg]
  by_cases h1 : sourceKey a.source = K
  · rw [if_pos h1]
    by_cases h2 : levelKey a.level = K
    · rw [if_pos h2]
      exact fun x hx => List.mem_of_mem_filter (List.mem_of_mem_filter hx)
    · rw [if_neg h2]
      exact fun x hx => List.mem_of_mem_filter hx
  · rw [if_neg h1]
    by_cases h2 : levelKey a.level = K
    · rw [if_pos h2]
      exact fun x hx => List.mem_of_mem_filter hx
    · rw [if_neg h2]
      exact fun x hx => hx

theorem not_mem_filter_self {l : List Str} {k : Str} :
    k ∉ l.filter (fun x => !(x == k)) := by
  intro h
  rcases List.mem_filter.mp h with ⟨_, hp⟩
  simp at hp

theorem smembers_purgeStep_removed (r : Redis) (now : Nat) (k : Str)
    {a : Alert} {e : Option Nat} (hg : r.get now k = some (.rstr a e)) :
    k ∉ (purgeStep r now k a).smembers now (levelKey a.level) ∧
    k ∉ (purgeStep r now k a).smembers now (sourceKey a.source) := by
  unfold purgeStep
  constructor
  · rw [smembers_srem, if_neg (fun hc =>
      levelKey_ne_sourceKey a.level a.source hc.symm), smembers_srem,
      if_pos rfl]
    exact not_mem_filter_self
  · rw [smembers_srem, if_pos rfl]
    exact not_mem_filter_self

theorem find_purgeStep_rstr (r : Redis) (now : Nat) (k : Str) {a : Alert}
    (k' : Str) {c : Alert} {e' : Option Nat} (hne : k ≠ k')
    (hf : r.find k' = some (.rstr c e')) :
    (purgeStep r now k a).find k' = some (.rstr c e') := by
  unfold purgeStep
  rw [find_srem_not_set, find_srem_not_set, find_zrem_not_zset,
    find_del_single, if_neg hne]
  · exact hf
  · intro l hc
    rw [find_del_single, if_neg hne, hf] at hc
    exact absurd hc (by simp)
  · intro mem e2 hc
    rw [find_zrem_not_zset, find_del_single, if_neg hne, hf] at hc
    · exact absurd hc (by simp)
    · intro l hc2
      rw [find_del_single, if_neg hne, hf] at hc2
      exact absurd hc2 (by simp)
  · intro mem e2 hc
    rw [find_srem_not_set, find_zrem_not_zset, find_del_single,
      if_neg hne, hf] at hc
    · exact absurd hc (by simp)
    · intro l hc2
      rw [find_del_single, if_neg hne, hf] at hc2
      exact absurd hc2 (by simp)
    · intro mem2 e3 hc2
      rw [find_zrem_not_zset, find_del_single, if_neg hne, hf] at hc2
      · exact absurd hc2 (by simp)
      · intro l hc3
        rw [find_del_single, if_neg hne, hf] at hc3
        exact absurd hc3 (by simp)

theorem find_purgeStep_none (r : Redis) (now : Nat) (k : Str) {a : Alert}
    (k' : Str) (hf : (r.del [k]).find k' = none) :
    (purgeStep r now k a).find k' = none := by
  unfold purgeStep
  rw [find_srem_not_set, find_srem_not_set, find_zrem_not_zset]
  · exact hf
  · intro l hc
    rw [hf] at hc
    exact absurd hc (by simp)
  · intro mem e2 hc
    rw [find_zrem_not_zset, hf] at hc
    · exact absurd hc (by simp)
    · intro l hc2
      rw [hf] at hc2
      exact absurd hc2 (by simp)
  · intro mem e2 hc
    rw [find_srem_not_set, find_zrem_not_zset, hf] at hc
    · exact absurd hc (by simp)
    · intro l hc2
      rw [hf] at hc2
      exact absurd hc2 (by simp)
    · intro mem2 e3 hc2
      rw [find_zrem_not_zset, hf] at hc2
      · exact absurd hc2 (by simp)
      · intro l hc3
        rw [hf] at hc3
        exact absurd hc3 (by simp)

theorem matchRecB_purgeStep (r : Redis) (now : Nat) (tag : Str) (k0 : Str)
    {a : Alert} {e : Option Nat} (hg : r.get now k0 = some (.rstr a e))
    (k : Str) :
    matchRecB (purgeStep r now k0 a) now tag k =
      if k0 = k then false else matchRecB r now tag k := by
  unfold matchRecB
  rw [recOf_purgeStep r now k0 hg k]
  by_cases h : k0 = k
  · rw [if_pos h, if_pos h]
  · rw [if_neg h, if_neg h]

theorem recOf_purgeChatGo (now : Nat) (tag : Str) (L : List Str) :
    ∀ (r : Redis) (k : Str),
      recOf (purgeChatGo now tag r L) now k =
        if k ∈ L ∧ matchRecB r now tag k = true then none
        else recOf r now k := by
  induction L with
  | nil =>
    intro r k
    rw [if_neg (by simp)]
    rfl
  | cons k0 rest ih =>
    intro r k
    cases hg : r.get now k0 with
    | some v =>
      cases v with
      | rstr a e =>
        have hrec0 : recOf r now k0 = some a := by
          unfold recOf
          rw [hg]
        by_cases hm : hasSub a.source tag = true
        · rw [purgeChatGo_cons_match now tag r k0 rest hg hm, ih]
          by_cases hk : k = k0
          · subst hk
            rw [matchRecB_purgeStep r now tag k hg k, if_pos rfl]
            rw [if_neg (by simp)]
            rw [recOf_purgeStep r now k hg k, if_pos rfl]
            rw [if_pos ⟨List.mem_cons_self _ _, by
              unfold matchRecB
              rw [hrec0]
              exact hm⟩]
          · rw [matchRecB_purgeStep r now tag k0 hg k,
              if_neg (show ¬ k0 = k from fun hc => hk hc.symm)]
            rw [recOf_purgeStep r now k0 hg k,
              if_neg (show ¬ k0 = k from fun hc => hk hc.symm)]
            by_cases hc : k ∈ rest ∧ matchRecB r now tag k = true
            · rw [if_pos hc, if_pos ⟨List.mem_cons_of_mem _ hc.1, hc.2⟩]
            · rw [if_neg hc, if_neg (fun hc2 =>
                hc ⟨(List.mem_cons.mp hc2.1).resolve_left hk, hc2.2⟩)]
        · rw [purgeChatGo_cons_nomatch now tag r k0 rest hg
            (Bool.not_eq_true _ ▸ hm), ih]
          by_cases hc : k ∈ rest ∧ matchRecB r now tag k = true
          · rw [if_pos hc, if_pos ⟨List.mem_cons_of_mem _ hc.1, hc.2⟩]
          · rw [if_neg hc, if_neg (fun hc2 => ?_)]
            rcases List.mem_cons.mp hc2.1 with hk | hk
            · subst hk
              have : matchRecB r now tag k = hasSub a.source tag := by
                unfold matchRecB
                rw [hrec0]
              rw [this] at hc2
              exact hm hc2.2
            · exact hc ⟨hk, hc2.2⟩
      | rint n =>
        have hrec0 : recOf r now k0 = none := by
          unfold recOf
          rw [hg]
        rw [purgeChatGo_cons_skip now tag r k0 rest hrec0, ih]
        by_cases hc : k ∈ rest ∧ matchRecB r now tag k = true
        · rw [if_pos hc, if_pos ⟨List.mem_cons_of_mem _ hc.1, hc.2⟩]
        · rw [if_neg hc, if_neg (fun hc2 => ?_)]
          rcases List.mem_cons.mp hc2.1 with hk | hk
          · subst hk
            have : matchRecB r now tag k = false := by
              unfold matchRecB
              rw [hrec0]
            rw [this] at hc2
            exact absurd hc2.2 (by simp)
          · exact hc ⟨hk, hc2.2⟩
      | rzset l =>
        have hrec0 : recOf r now k0 = none := by
          unfold recOf
          rw [hg]
        rw [purgeChatGo_cons_skip now tag r k0 rest hrec0, ih]
        by_cases hc : k ∈ rest ∧ matchRecB r now tag k = true
        · rw [if_pos hc, if_pos ⟨List.mem_cons_of_mem _ hc.1, hc.2⟩]
        · rw [if_neg hc, if_neg (fun hc2 => ?_)]
          rcases List.mem_cons.mp hc2.1 with hk | hk
          · subst hk
            have : matchRecB r now tag k = false := by
              unfold matchRecB
              rw [hrec0]
            rw [this] at hc2
            exact absurd hc2.2 (by simp)
          · exact hc ⟨hk, hc2.2⟩
      | rset mem e =>
        have hrec0 : recOf r now k0 = none := by
          unfold recOf
          rw [hg]
        rw [purgeChatGo_cons_skip now tag r k0 rest hrec0, ih]
        by_cases hc : k ∈ rest ∧ matchRecB r now tag k = true
        · rw [if_pos hc, if_pos ⟨List.mem_cons_of_mem _ hc.1, hc.2⟩]
        · rw [if_neg hc, if_neg (fun hc2 => ?_)]
          rcases List.mem_cons.mp hc2.1 with hk | hk
          · subst hk
            have : matchRecB r now tag k = false := by
              unfold matchRecB
              rw [hrec0]
            rw [this] at hc2
            exact absurd hc2.2 (by simp)
          · exact hc ⟨hk, hc2.2⟩
    | none =>
      have hrec0 : recOf r now k0 = none := by
        unfold recOf
        rw [hg]
      rw [purgeChatGo_cons_skip now tag r k0 rest hrec0, ih]
      by_cases hc : k ∈ rest ∧ matchRecB r now tag k = true
      · rw [if_pos hc, if_pos ⟨List.mem_cons_of_mem _ hc.1, hc.2⟩]
      · rw [if_neg hc, if_neg (fun hc2 => ?_)]
        rcases List.mem_cons.mp hc2.1 with hk | hk
        · subst hk
          have : matchRecB r now tag k = false := by
            unfold matchRecB
            rw [hrec0]
          rw [this] at hc2
          exact absurd hc2.2 (by simp)
        · exact hc ⟨hk, hc2.2⟩

theorem tlList_purgeChatGo (now : Nat) (tag : Str) (L : List Str) :
    ∀ r : Redis, tlList (purgeChatGo now tag r L) =
      (tlList r).filter
        (fun p => !(L.contains p.2 && matchRecB r now tag p.2)) := by
  induction L with
  | nil =>
    intro r
    refine ((List.filter_eq_self.mpr ?_).symm)
    intro p _
    simp
  | cons k0 rest ih =>
    intro r
    cases hg : r.get now k0 with
    | some v =>
      cases v with
      | rstr a e =>
        have hrec0 : recOf r now k0 = some a := by
          unfold recOf
          rw [hg]
        have hm0 : matchRecB r now tag k0 = hasSub a.source tag := by
          unfold matchRecB
          rw [hrec0]
        by_cases hm : hasSub a.source tag = true
        · rw [purgeChatGo_cons_match now tag r k0 rest hg hm, ih,
            tlList_purgeStep r now k0 hg, List.filter_filter]
          refine List.filter_congr ?_
          intro p _
          by_cases hpk : p.2 = k0
          · have hb : (p.2 == k0) = true := beq_iff_eq.mpr hpk
            simp [hb, hpk, hm0, hm]
          · have hb : (p.2 == k0) = false := beq_false_of_ne hpk
            rw [matchRecB_purgeStep r now tag k0 hg p.2,
              if_neg (fun hc => hpk hc.symm)]
            simp [List.contains_cons, hb, hpk]
        · have hmf : hasSub a.source tag = false := by
            cases hv : hasSub a.source tag
            · rfl
            · exact absurd hv hm
          rw [purgeChatGo_cons_nomatch now tag r k0 rest hg hmf, ih]
          refine List.filter_congr ?_
          intro p _
          by_cases hpk : p.2 = k0
          · have hb : (p.2 == k0) = true := beq_iff_eq.mpr hpk
            simp [List.contains_cons, hb, hpk, hm0, hmf]
          · have hb : (p.2 == k0) = false := beq_false_of_ne hpk
            simp [List.contains_cons, hb, hpk]
      | rint n =>
        have hrec0 : recOf r now k0 = none := by
          unfold recOf
          rw [hg]
        have hm0 : matchRecB r now tag k0 = false := by
          unfold matchRecB
          rw [hrec0]
        rw [purgeChatGo_cons_skip now tag r k0 rest hrec0, ih]
        refine List.filter_congr ?_
        intro p _
        by_cases hpk : p.2 = k0
        · have hb : (p.2 == k0) = true := beq_iff_eq.mpr hpk
          simp [List.contains_cons, hb, hpk, hm0]
        · have hb : (p.2 == k0) = false := beq_false_of_ne hpk
          simp [List.contains_cons, hb, hpk]
      | rzset l =>
        have hrec0 : recOf r now k0 = none := by
          unfold recOf
          rw [hg]
        have hm0 : matchRecB r now tag k0 = false := by
          unfold matchRecB
          rw [hrec0]
        rw [purgeChatGo_cons_skip now tag r k0 rest hrec0, ih]
        refine List.filter_congr ?_
        intro p _
        by_cases hpk : p.2 = k0
        · have hb : (p.2 == k0) = true := beq_iff_eq.mpr hpk
          simp [List.contains_cons, hb, hpk, hm0]
        · have hb : (p.2 == k0) = false := beq_false_of_ne hpk
          simp [List.contains_cons, hb, hpk]
      | rset mem e =>
        have hrec0 : recOf r now k0 = none := by
          unfold recOf
          rw [hg]
        have hm0 : matchRecB r now tag k0 = false := by
          unfold matchRecB
          rw [hrec0]
        rw [purgeChatGo_cons_skip now tag r k0 rest hrec0, ih]
        refine List.filter_congr ?_
        intro p _
        by_cases hpk : p.2 = k0
        · have hb : (p.2 == k0) = true := beq_iff_eq.mpr hpk
          simp [List.contains_cons, hb, hpk, hm0]
        · have hb : (p.2 == k0) = false := beq_false_of_ne hpk
          simp [List.contains_cons, hb, hpk]
    | none =>
      have hrec0 : recOf r now k0 = none := by
        unfold recOf
        rw [hg]
      have hm0 : matchRecB r now tag k0 = false := by
        unfold matchRecB
        rw [hrec0]
      rw [purgeChatGo_cons_skip now tag r k0 rest hrec0, ih]
      refine List.filter_congr ?_
      intro p _
      by_cases hpk : p.2 = k0
      · have hb : (p.2 == k0) = true := beq_iff_eq.mpr hpk
        simp [List.contains_cons, hb, hpk, hm0]
      · have hb : (p.2 == k0) = false := beq_false_of_ne hpk
        simp [List.contains_cons, hb, hpk]

theorem smembers_purgeChatGo_subset (now : Nat) (tag : Str) (L : List Str) :
    ∀ (r : Redis) (K : Str),
      (purgeChatGo now tag r L).smembers now K ⊆ r.smembers now K := by
  induction L with
  | nil => intro r K x hx; exact hx
  | cons k0 rest ih =>
    intro r K
    cases hg : r.get now k0 with
    | some v =>
      cases v with
      | rstr a e =>
        by_cases hm : hasSub a.source tag = true
        · rw [purgeChatGo_cons_match now tag r k0 rest hg hm]
          exact fun x hx =>
            smembers_purgeStep_subset r now k0 hg K (ih _ K hx)
        · have hmf : hasSub a.source tag = false := by
            cases hv : hasSub a.source tag
            · rfl
            · exact absurd hv hm
          rw [purgeChatGo_cons_nomatch now tag r k0 rest hg hmf]
          exact ih r K
      | rint n =>
        rw [purgeChatGo_cons_skip now tag r k0 rest (by unfold recOf; rw [hg])]
        exact ih r K
      | rzset l =>
        rw [purgeChatGo_cons_skip now tag r k0 rest (by unfold recOf; rw [hg])]
        exact ih r K
      | rset mem e =>
        rw [purgeChatGo_cons_skip now tag r k0 rest (by unfold recOf; rw [hg])]
        exact ih r K
    | none =>
      rw [purgeChatGo_cons_skip now tag r k0 rest (by unfold recOf; rw [hg])]
      exact ih r K

theorem find_purgeChatGo_none (now : Nat) (tag : Str) (L : List Str) :
    ∀ (r : Redis) (k : Str), r.find k = none →
      (purgeChatGo now tag r L).find k = none := by
  induction L with
  | nil => intro r k h; exact h
  | cons k0 rest ih =>
    intro r k h
    cases hg : r.get now k0 with
    | some v =>
      cases v with
      | rstr a e =>
        by_cases hm : hasSub a.source tag = true
        · rw [purgeChatGo_cons_match now tag r k0 rest hg hm]
          refine ih _ _ ?_
          refine find_purgeStep_none r now k0 k ?_
          rw [find_del_single]
          by_cases hc : k0 = k
          · rw [if_pos hc]
          · rw [if_neg hc]
            exact h
        · have hmf : hasSub a.source tag = false := by
            cases hv : hasSub a.source tag
            · rfl
            · exact absurd hv hm
          rw [purgeChatGo_cons_nomatch now tag r k0 rest hg hmf]
          exact ih r k h
      | rint n =>
        rw [purgeChatGo_cons_skip now tag r k0 rest (by unfold recOf; rw [hg])]
        exact ih r k h
      | rzset l =>
        rw [purgeChatGo_cons_skip now tag r k0 rest (by unfold recOf; rw [hg])]
        exact ih r k h
      | rset mem e =>
        rw [purgeChatGo_cons_skip now tag r k0 rest (by unfold recOf; rw [hg])]
        exact ih r k h
    | none =>
      rw [purgeChatGo_cons_skip now tag r k0 rest (by unfold recOf; rw [hg])]
      exact ih r k h

theorem find_purgeChatGo_rstr (now : Nat) (tag : Str) (L : List Str) :
    ∀ (r : Redis) (k : Str) (c : Alert) (e2 : Option Nat),
      r.find k = some (.rstr c e2) →
      (hasSub c.source tag = false ∨ RVal.liveAt (.rstr c e2) now = false) →
      (purgeChatGo now tag r L).find k = some (.rstr c e2) := by
  induction L with
  | nil => intro r k c e2 h _; exact h
  | cons k0 rest ih =>
    intro r k c e2 h hside
    cases hg : r.get now k0 with
    | some v =>
      cases v with
      | rstr a e =>
        by_cases hm : hasSub a.source tag = true
        · rw [purgeChatGo_cons_match now tag r k0 rest hg hm]
          have hne : k0 ≠ k := by
            intro hc
            subst hc
            have hf0 := get_some_find hg
            rw [h] at hf0
            have ha : a = c ∧ e = e2 := by
              have := hf0.1
              injection this with h2
              injection h2 with h3 h4
              exact ⟨h3.symm, h4.symm⟩
            rcases ha with ⟨ha1, ha2⟩
            subst ha1
            subst ha2
            rcases hside with hs | hs
            · rw [hm] at hs
              exact absurd hs (by simp)
            · rw [hf0.2] at hs
              exact absurd hs (by simp)
          exact ih _ _ _ _ (find_purgeStep_rstr r now k0 k hne h) hside
        · have hmf : hasSub a.source tag = false := by
            cases hv : hasSub a.source tag
            · rfl
            · exact absurd hv hm
          rw [purgeChatGo_cons_nomatch now tag r k0 rest hg hmf]
          exact ih r k c e2 h hside
      | rint n =>
        rw [purgeChatGo_cons_skip now tag r k0 rest (by unfold recOf; rw [hg])]
        exact ih r k c e2 h hside
      | rzset l =>
        rw [purgeChatGo_cons_skip now tag r k0 rest (by unfold recOf; rw [hg])]
        exact ih r k c e2 h hside
      | rset mem e =>
        rw [purgeChatGo_cons_skip now tag r k0 rest (by unfold recOf; rw [hg])]
        exact ih r k c e2 h hside
    | none =>
      rw [purgeChatGo_cons_skip now tag r k0 rest (by unfold recOf; rw [hg])]
      exact ih r k c e2 h hside

theorem find_purgeChatGo_deleted (now : Nat) (tag : Str) (L : List Str) :
    ∀ (r : Redis) (k : Str), k ∈ L → matchRecB r now tag k = true →
      (purgeChatGo now tag r L).find k = none := by
  induction L with
  | nil => intro r k h _; exact absurd h (by simp)
  | cons k0 rest ih =>
    intro r k hmem hmr
    cases hg : r.get now k0 with
    | some v =>
      cases v with
      | rstr a e =>
        have hrec0 : recOf r now k0 = some a := by
          unfold recOf
          rw [hg]
        by_cases hm : hasSub a.source tag = true
        · rw [purgeChatGo_cons_match now tag r k0 rest hg hm]
          by_cases hk : k = k0
          · subst hk
            refine find_purgeChatGo_none now tag rest _ _ ?_
            refine find_purgeStep_none r now k k ?_
            rw [find_del_single, if_pos rfl]
          · refine ih _ _ ((List.mem_cons.mp hmem).resolve_left hk) ?_
            rw [matchRecB_purgeStep r now tag k0 hg k,
              if_neg (fun hc => hk hc.symm)]
            exact hmr
        · have hmf : hasSub a.source tag = false := by
            cases hv : hasSub a.source tag
            · rfl
            · exact absurd hv hm
          rw [purgeChatGo_cons_nomatch now tag r k0 rest hg hmf]
          by_cases hk : k = k0
          · subst hk
            unfold matchRecB at hmr
            rw [hrec0] at hmr
            exact absurd hmr hm
          · exact ih r k ((List.mem_cons.mp hmem).resolve_left hk) hmr
      | rint n =>
        have hrec0 : recOf r now k0 = none := by
          unfold recOf
          rw [hg]
        rw [purgeChatGo_cons_skip now tag r k0 rest hrec0]
        by_cases hk : k = k0
        · subst hk
          unfold matchRecB at hmr
          rw [hrec0] at hmr
          exact absurd hmr (by simp)
        · exact ih r k ((List.mem_cons.mp hmem).resolve_left hk) hmr
      | rzset l =>
        have hrec0 : recOf r now k0 = none := by
          unfold recOf
          rw [hg]
        rw [purgeChatGo_cons_skip now tag r k0 rest hrec0]
        by_cases hk : k = k0
        · subst hk
          unfold matchRecB at hmr
          rw [hrec0] at hmr
          exact absurd hmr (by simp)
        · exact ih r k ((List.mem_cons.mp hmem).resolve_left hk) hmr
      | rset mem e =>
        have hrec0 : recOf r now k0 = none := by
          unfold recOf
          rw [hg]
        rw [purgeChatGo_cons_skip now tag r k0 rest hrec0]
        by_cases hk : k = k0
        · subst hk
          unfold matchRecB at hmr
          rw [hrec0] at hmr
          exact absurd hmr (by simp)
        · exact ih r k ((List.mem_cons.mp hmem).resolve_left hk) hmr
    | none =>
      have hrec0 : recOf r now k0 = none := by
        unfold recOf
        rw [hg]
      rw [purgeChatGo_cons_skip now tag r k0 rest hrec0]
      by_cases hk : k = k0
      · subst hk
        unfold matchRecB at hmr
        rw [hrec0] at hmr
        exact absurd hmr (by simp)
      · exact ih r k ((List.mem_cons.mp hmem).resolve_left hk) hmr

theorem smembers_purgeChatGo_removed (now : Nat) (tag : Str) (L : List Str) :
    ∀ (r : Redis) (k : Str) (a : Alert), k ∈ L →
      recOf r now k = some a → hasSub a.source tag = true →
      k ∉ (purgeChatGo now tag r L).smembers now (levelKey a.level) ∧
      k ∉ (purgeChatGo now tag r L).smembers now (sourceKey a.source) := by
  induction L with
  | nil => intro r k a h _ _; exact absurd h (by simp)
  | cons k0 rest ih =>
    intro r k a hmem hrec hmm
    cases hg : r.get now k0 with
    | some v =>
      cases v with
      | rstr a0 e0 =>
        have hrec0 : recOf r now k0 = some a0 := by
          unfold recOf
          rw [hg]
        by_cases hm : hasSub a0.source tag = true
        · rw [purgeChatGo_cons_match now tag r k0 rest hg hm]
          by_cases hk : k = k0
          · subst hk
            have ha : a0 = a := by
              rw [hrec0] at hrec
              exact Option.some.inj hrec
            subst ha
            have hrem := smembers_purgeStep_removed r now k hg
            exact ⟨fun hc =>
                hrem.1 (smembers_purgeChatGo_subset now tag rest _ _ hc),
              fun hc =>
                hrem.2 (smembers_purgeChatGo_subset now tag rest _ _ hc)⟩
          · refine ih _ _ _ ((List.mem_cons.mp hmem).resolve_left hk) ?_ hmm
            rw [recOf_purgeStep r now k0 hg k,
              if_neg (fun hc => hk hc.symm)]
            exact hrec
        · have hmf : hasSub a0.source tag = false := by
            cases hv : hasSub a0.source tag
            · rfl
            · exact absurd hv hm
          rw [purgeChatGo_cons_nomatch now tag r k0 rest hg hmf]
          by_cases hk : k = k0
          · subst hk
            have ha : a0 = a := by
              rw [hrec0] at hrec
              exact Option.some.inj hrec
            subst ha
            exact absurd hmm hm
          · exact ih r k a ((List.mem_cons.mp hmem).resolve_left hk) hrec hmm
      | rint n =>
        have hrec0 : recOf r now k0 = none := by
          unfold recOf
          rw [hg]
        rw [purgeChatGo_cons_skip now tag r k0 rest hrec0]
        by_cases hk : k = k0
        · subst hk
          rw [hrec0] at hrec
          exact absurd hrec (by simp)
        · exact ih r k a ((List.mem_cons.mp hmem).resolve_left hk) hrec hmm
      | rzset l =>
        have hrec0 : recOf r now k0 = none := by
          unfold recOf
          rw [hg]
        rw [purgeChatGo_cons_skip now tag r k0 rest hrec0]
        by_cases hk : k = k0
        · subst hk
          rw [hrec0] at hrec
          exact absurd hrec (by simp)
        · exact ih r k a ((List.mem_cons.mp hmem).resolve_left hk) hrec hmm
      | rset mem e =>
        have hrec0 : recOf r now k0 = none := by
          unfold recOf
          rw [hg]
        rw [purgeChatGo_cons_skip now tag r k0 rest hrec0]
        by_cases hk : k = k0
        · subst hk
          rw [hrec0] at hrec
          exact absurd hrec (by simp)
        · exact ih r k a ((List.mem_cons.mp hmem).resolve_left hk) hrec hmm
    | none =>
      have hrec0 : recOf r now k0 = none := by
        unfold recOf
        rw [hg]
      rw [purgeChatGo_cons_skip now tag r k0 rest hrec0]
      by_cases hk : k = k0
      · subst hk
        rw [hrec0] at hrec
        exact absurd hrec (by simp)
      · exact ih r k a ((List.mem_cons.mp hmem).resolve_left hk) hrec hmm

theorem smembers_purgeStep_keep (r : Redis) (now : Nat) (k : Str)
    {a : Alert} {e : Option Nat} (hg : r.get now k = some (.rstr a e))
    (K m : Str) (hne : m ≠ k) (hm : m ∈ r.smembers now K) :
    m ∈ (purgeStep r now k a).smembers now K := by
  unfold purgeStep
  rw [smembers_srem, smembers_srem, smembers_zrem_timeline,
    smembers_del_rstr r now k K hg]
  by_cases h1 : sourceKey a.source = K
  · rw [if_pos h1]
    by_cases h2 : levelKey a.level = K
    · rw [if_pos h2]
      refine List.mem_filter.mpr ⟨List.mem_filter.mpr ⟨hm, ?_⟩, ?_⟩
      · simpa using hne
      · simpa using hne
    · rw [if_neg h2]
      refine List.mem_filter.mpr ⟨hm, ?_⟩
      simpa using hne
  · rw [if_neg h1]
    by_cases h2 : levelKey a.level = K
    · rw [if_pos h2]
      refine List.mem_filter.mpr ⟨hm, ?_⟩
      simpa using hne
    · rw [if_neg h2]
      exact hm

theorem smembers_purgeChatGo_keep (now : Nat) (tag : Str) (L : List Str) :
    ∀ (r : Redis) (K m : Str), matchRecB r now tag m = false →
      m ∈ r.smembers now K →
      m ∈ (purgeChatGo now tag r L).smembers now K := by
  induction L with
  | nil => intro r K m _ hm; exact hm
  | cons k0 rest ih =>
    intro r K m hmr hm
    cases hg : r.get now k0 with
    | some v =>
      cases v with
      | rstr a e =>
        by_cases hmatch : hasSub a.source tag = true
        · rw [purgeChatGo_cons_match now tag r k0 rest hg hmatch]
          have hne : m ≠ k0 := by
            intro hc
            subst hc
            unfold matchRecB recOf at hmr
            rw [hg] at hmr
            dsimp only at hmr
            rw [hmatch] at hmr
            exact absurd hmr (by simp)
          refine ih _ K m ?_
            (smembers_purgeStep_keep r now k0 hg K m hne hm)
          rw [matchRecB_purgeStep r now tag k0 hg m,
            if_neg (fun hc => hne hc.symm)]
          exact hmr
        · have hmf : hasSub a.source tag = false := by
            cases hv : hasSub a.source tag
            · rfl
            · exact absurd hv hmatch
          rw [purgeChatGo_cons_nomatch now tag r k0 rest hg hmf]
          exact ih r K m hmr hm
      | rint n =>
        rw [purgeChatGo_cons_skip now tag r k0 rest (by unfold recOf; rw [hg])]
        exact ih r K m hmr hm
      | rzset l =>
        rw [purgeChatGo_cons_skip now tag r k0 rest (by unfold recOf; rw [hg])]
        exact ih r K m hmr hm
      | rset mem e =>
        rw [purgeChatGo_cons_skip now tag r k0 rest (by unfold recOf; rw [hg])]
        exact ih r K m hmr hm
    | none =>
      rw [purgeChatGo_cons_skip now tag r k0 rest (by unfold recOf; rw [hg])]
      exact ih r K m hmr hm

theorem filterMap_recOf_filter (r : Redis) (now : Nat) (tag : Str) :
    ∀ L : List Str,
      (L.filter (fun m => !(matchRecB r now tag m))).filterMap (recOf r now) =
      (L.filterMap (recOf r now)).filter (fun a => !(hasSub a.source tag)) := by
  intro L
  induction L with
  | nil => rfl
  | cons m rest ih =>
    cases hrec : recOf r now m with
    | none =>
      have hmr : matchRecB r now tag m = false := by
        unfold matchRecB
        rw [hrec]
      rw [List.filter_cons, if_pos (by rw [hmr]; rfl)]
      rw [List.filterMap_cons, hrec, List.filterMap_cons, hrec]
      exact ih
    | some a =>
      have hmr : matchRecB r now tag m = hasSub a.source tag := by
        unfold matchRecB
        rw [hrec]
      cases hs : hasSub a.source tag with
      | false =>
        rw [List.filter_cons, if_pos (by rw [hmr, hs]; rfl)]
        rw [List.filterMap_cons, hrec, List.filterMap_cons, hrec]
        rw [List.filter_cons, if_pos (by rw [hs]; rfl), ih]
      | true =>
        rw [List.filter_cons, if_neg (by rw [hmr, hs]; simp)]
        rw [List.filterMap_cons, hrec]
        rw [List.filter_cons, if_neg (by rw [hs]; simp), ih]

theorem tlList_purgeChat_timeline (r : Redis) (now : Nat) (tag : Str) :
    tlList (purgeChatGo now tag r (r.zrevrangeAll now keyTimeline)) =
      (tlList r).filter (fun p => !(matchRecB r now tag p.2)) := by
  rw [tlList_purgeChatGo]
  refine List.filter_congr ?_
  intro p hp
  have hmem : p.2 ∈ r.zrevrangeAll now keyTimeline := by
    rw [zrevrangeAll_timeline]
    rw [List.mem_reverse]
    exact List.mem_map.mpr ⟨p, hp, rfl⟩
  have hc : (r.zrevrangeAll now keyTimeline).contains p.2 = true := by
    simp [List.contains]
    exact hmem
  rw [hc]
  rfl

theorem zrevrangeAll_purgeChat (r : Redis) (now : Nat) (tag : Str) :
    (purgeChatGo now tag r
        (r.zrevrangeAll now keyTimeline)).zrevrangeAll now keyTimeline =
      (r.zrevrangeAll now keyTimeline).filter
        (fun m => !(matchRecB r now tag m)) := by
  rw [zrevrangeAll_timeline, tlList_purgeChat_timeline]
  rw [show (fun p : Nat × Str => !(matchRecB r now tag p.2)) =
      ((fun m => !(matchRecB r now tag m)) ∘ (fun p : Nat × Str => p.2))
    from rfl]
  rw [← List.filter_map]
  rw [← List.filter_reverse]
  rw [← zrevrangeAll_timeline]

theorem getAlerts_purgeChat (r : Redis) (now : Nat) (tag : Str) :
    (getAlerts (purgeChatGo now tag r
        (r.zrevrangeAll now keyTimeline)) now).2 =
      ((getAlerts r now).2).filter (fun a => !(hasSub a.source tag)) := by
  rw [getAlerts_snd, getAlerts_snd, zrevrangeAll_purgeChat]
  rw [List.filterMap_congr (g := recOf r now) ?_]
  · exact filterMap_recOf_filter r now tag _
  · intro m hm
    have hmr : matchRecB r now tag m = false := by
      have := (List.mem_filter.mp hm).2
      simpa using this
    rw [recOf_purgeChatGo]
    rw [if_neg (fun hc => by rw [hmr] at hc; exact absurd hc.2 (by simp))]

/-- C7: `PurgeAlertsByChat` (modelled from the spec) deletes exactly the
alert records whose source contains the substring `chat:{chatID}`:
afterwards `list()` returns exactly the non-matching live alerts in their
old order; a record whose source does not contain the tag is untouched,
and its membership in any index set is preserved; and a matching live
record listed on the timeline is deleted, no longer appears on the
timeline, and is removed from its level and source index sets. -/
theorem C7_purge_by_chat (r : Redis) (now : Nat) (chatID : Str) :
    (getAlerts (purgeAlertsByChat r now chatID) now).2 =
      ((getAlerts r now).2).filter
        (fun a => !(hasSub a.source (str "chat:" ++ chatID))) ∧
    (∀ (k : Str) (c : Alert) (e2 : Option Nat),
      r.find k = some (.rstr c e2) →
      hasSub c.source (str "chat:" ++ chatID) = false →
      (purgeAlertsByChat r now chatID).find k = some (.rstr c e2)) ∧
    (∀ (k K : Str) (c : Alert),
      recOf r now k = some c →
      hasSub c.source (str "chat:" ++ chatID) = false →
      k ∈ r.smembers now K →
      k ∈ (purgeAlertsByChat r now chatID).smembers now K) ∧
    (∀ (k : Str) (a : Alert),
      k ∈ r.zrevrangeAll now keyTimeline →
      recOf r now k = some a →
      hasSub a.source (str "chat:" ++ chatID) = true →
      (purgeAlertsByChat r now chatID).find k = none ∧
      (∀ p ∈ tlList (purgeAlertsByChat r now chatID), p.2 ≠ k) ∧
      k ∉ (purgeAlertsByChat r now chatID).smembers now (levelKey a.level) ∧
      k ∉ (purgeAlertsByChat r now chatID).smembers now
        (sourceKey a.source)) := by
  unfold purgeAlertsByChat
  refine ⟨getAlerts_purgeChat r now _, ?_, ?_, ?_⟩
  · intro k c e2 hf hs
    exact find_purgeChatGo_rstr now _ _ r k c e2 hf (Or.inl hs)
  · intro k K c hrec hs hm
    refine smembers_purgeChatGo_keep now _ _ r K k ?_ hm
    unfold matchRecB
    rw [hrec]
    exact hs
  · intro k a hk hrec hs
    have hmr : matchRecB r now (str "chat:" ++ chatID) k = true := by
      unfold matchRecB
      rw [hrec]
      exact hs
    refine ⟨find_purgeChatGo_deleted now _ _ r k hk hmr, ?_, ?_⟩
    · intro p hp heq
      rw [tlList_purgeChat_timeline] at hp
      have h2 := (List.mem_filter.mp hp).2
      rw [heq, hmr] at h2
      exact absurd h2 (by simp)
    · exact smembers_purgeChatGo_removed now _ _ r k a hk hrec hs

/-- Two alerts: the first's source carries `chat:42`, the second's
`chat:7` (the spec's example). -/
def rC7 : Redis :=
  (addAlert (addAlert Redis.empty 5000000000 (str "bot:a:chat:42")
    (str "info") (str "t1") (str "m1")).1 6000000000 (str "bot:b:chat:7")
    (str "warning") (str "t2") (str "m2")).1

/-- The first alert's record. -/
def aC7 : Alert :=
  ⟨1, 5000000000, str "bot:a:chat:42", str "info", str "t1", str "m1"⟩

set_option maxRecDepth 10000 in
theorem C7_purge_by_chat_witness :
    (alertKey 1 ∈ rC7.zrevrangeAll 6000000000 keyTimeline ∧
     recOf rC7 6000000000 (alertKey 1) = some aC7 ∧
     hasSub aC7.source (str "chat:" ++ str "42") = true) ∧
    (purgeAlertsByChat rC7 6000000000 (str "42")).find (alertKey 1) =
      none ∧
    (getAlerts (purgeAlertsByChat rC7 6000000000 (str "42"))
        6000000000).2.map (fun a => a.source) = [str "bot:b:chat:7"] :=
  ⟨⟨by decide, by decide, by decide⟩,
    ((C7_purge_by_chat rC7 6000000000 (str "42")).2.2.2 (alertKey 1) aC7
      (by decide) (by decide) (by decide)).1,
    by decide⟩
